import Mathlib

/-!
Verification development for the crypto-orderflow market-data service.

The Python source is shallowly embedded: prices and quantities (exchange
decimal strings, Python `Decimal`/`float` on the inputs considered here)
become `ℚ`; update identifiers and timestamps become `ℕ`; Python `dict`s
become association lists in insertion order; `SortedDict`s become
association lists whose ordered iteration is recovered by sorting on the
key.  Fallible operations return `Option`.
-/

namespace CryptoOrderflow

/-! ### Order book (src/data/orderbook.py)

`ManagedOrderbook` stores bids keyed by the *negated* price (the source
stores `ob.bids[-bid.price]` so that the ascending `SortedDict` iterates
bids from best (highest price) downwards); asks are keyed by price.
-/

structure OBLevel where
  price : ℚ
  quantity : ℚ
deriving DecidableEq, Repr

structure OrderbookSnapshot where
  last_update_id : ℕ
  bids : List OBLevel
  asks : List OBLevel
deriving DecidableEq, Repr

structure OrderbookUpdate where
  event_time : ℕ
  first_update_id : ℕ
  last_update_id : ℕ
  prev_last_update_id : ℕ
  bids : List OBLevel
  asks : List OBLevel
deriving DecidableEq, Repr

/-- A book side: association list from (possibly negated) price key to
quantity, in insertion order; models a Python dict / SortedDict. -/
abbrev Side := List (ℚ × ℚ)

/-- Dict upsert: replace the value at the first occurrence of the key, or
append a fresh entry. -/
def upsert (m : Side) (k v : ℚ) : Side :=
  match m with
  | [] => [(k, v)]
  | e :: rest => if e.1 = k then (k, v) :: rest else e :: upsert rest k v

/-- Dict pop with default (a no-op on an absent key): remove the first
occurrence of the key. -/
def removeKey (m : Side) (k : ℚ) : Side :=
  match m with
  | [] => []
  | e :: rest => if e.1 = k then rest else e :: removeKey rest k

/-- Dict membership lookup. -/
def lookupKey (m : Side) (k : ℚ) : Option ℚ :=
  match m with
  | [] => none
  | e :: rest => if e.1 = k then some e.2 else lookupKey rest k

/-- Smallest key of a (nonempty) side; mirrors `SortedDict.peekitem(0)`. -/
def minKeyD (m : Side) : ℚ :=
  match m with
  | [] => 0
  | e :: rest => rest.foldl (fun k f => min k f.1) e.1

/-- Minimum of a list of rationals with default 0 for the empty list. -/
def minD (l : List ℚ) : ℚ :=
  match l with
  | [] => 0
  | x :: xs => xs.foldl min x

/-- Maximum of a list of rationals with default 0 for the empty list. -/
def maxD (l : List ℚ) : ℚ :=
  match l with
  | [] => 0
  | x :: xs => xs.foldl max x

/-- State of `ManagedOrderbook` (the symbol string and the wall-clock
`last_update_time` bookkeeping are irrelevant to the claims and omitted /
driven by update event times only). -/
structure ManagedOrderbook where
  bids : Side
  asks : Side
  last_update_id : ℕ
  last_update_time : ℕ
  is_valid : Bool
  pending_updates : List OrderbookUpdate
deriving DecidableEq, Repr

def emptyBook : ManagedOrderbook :=
  { bids := [], asks := [], last_update_id := 0, last_update_time := 0,
    is_valid := false, pending_updates := [] }

/-- Apply the bid entries of a diff: `qty = 0` removes the (negated) key,
otherwise upserts. Mirrors `OrderbookManager._apply_update` lines 123-128. -/
def applyBidLevels (bids : Side) (ls : List OBLevel) : Side :=
  ls.foldl
    (fun m l => if l.quantity = 0 then removeKey m (-l.price) else upsert m (-l.price) l.quantity)
    bids

/-- Apply the ask entries of a diff; mirrors lines 130-135. -/
def applyAskLevels (asks : Side) (ls : List OBLevel) : Side :=
  ls.foldl
    (fun m l => if l.quantity = 0 then removeKey m l.price else upsert m l.price l.quantity)
    asks

/-- `OrderbookManager._apply_update`: the diff is rejected (gap) exactly
when `prev_last_update_id ≠ last_update_id` AND
`first_update_id > last_update_id + 1`; otherwise the levels are applied
and `last_update_id` / `last_update_time` are overwritten. Returns the
source's boolean success flag together with the new state. -/
def applyUpdate (ob : ManagedOrderbook) (u : OrderbookUpdate) : Bool × ManagedOrderbook :=
  if u.prev_last_update_id ≠ ob.last_update_id ∧ ob.last_update_id + 1 < u.first_update_id then
    (false, { ob with is_valid := false })
  else
    (true,
      { ob with
        bids := applyBidLevels ob.bids u.bids
        asks := applyAskLevels ob.asks u.asks
        last_update_id := u.last_update_id
        last_update_time := u.event_time })

/-- `OrderbookManager.initialize_orderbook` (success path): clear both
sides, load snapshot levels with strictly positive quantities, set
`last_update_id` and `is_valid := true`, then run `_apply_update` over the
pending queue (return values ignored, as in the source) with the queue
emptied. -/
def initializeOrderbook (ob : ManagedOrderbook) (snap : OrderbookSnapshot) : ManagedOrderbook :=
  let ob1 : ManagedOrderbook :=
    { ob with
      bids := (snap.bids.filter fun l => 0 < l.quantity).foldl
        (fun m l => upsert m (-l.price) l.quantity) []
      asks := (snap.asks.filter fun l => 0 < l.quantity).foldl
        (fun m l => upsert m l.price l.quantity) []
      last_update_id := snap.last_update_id
      is_valid := true
      pending_updates := [] }
  ob.pending_updates.foldl (fun b u => (applyUpdate b u).2) ob1

/-- `OrderbookManager.process_update`: while the book is invalid the diff
is buffered and a rebuild is requested (the spawned task is modelled by
the returned flag); otherwise the diff is applied and a rebuild is
requested iff application failed. -/
def processUpdate (ob : ManagedOrderbook) (u : OrderbookUpdate) : ManagedOrderbook × Bool :=
  if ob.is_valid = false then
    ({ ob with pending_updates := ob.pending_updates ++ [u] }, true)
  else
    let r := applyUpdate ob u
    (r.2, !r.1)

/-- `OrderbookManager.get_best_bid_ask`: `None` when the book is invalid
or either side is empty, otherwise the negated smallest bid key (the
highest bid price) and the smallest ask key. -/
def getBestBidAsk (ob : ManagedOrderbook) : Option (ℚ × ℚ) :=
  if ob.is_valid = false ∨ ob.bids = [] ∨ ob.asks = [] then none
  else some (-(minKeyD ob.bids), minKeyD ob.asks)

/-- `OrderbookManager.get_mid_price`. -/
def getMid (ob : ManagedOrderbook) : Option ℚ :=
  match getBestBidAsk ob with
  | none => none
  | some ba => some ((ba.1 + ba.2) / 2)

/-- Ordered iteration of a side, ascending in the stored key. -/
def sortByKey (m : Side) : Side :=
  m.insertionSort (fun a b => a.1 ≤ b.1)

/-- `OrderbookManager.get_orderbook`: `None` when invalid, else the price
levels of both sides in iteration order (bids highest-first after undoing
the key negation) with `lastUpdateId`. -/
def getOrderbookView (ob : ManagedOrderbook) :
    Option (List (ℚ × ℚ) × List (ℚ × ℚ) × ℕ) :=
  if ob.is_valid = false then none
  else some ((sortByKey ob.bids).map (fun e => (-e.1, e.2)), sortByKey ob.asks, ob.last_update_id)

/-- `OrderbookManager.get_depth_within_percent`: walk each side from the
best price outward while inside the band (the source breaks at the first
level outside, i.e. a `takeWhile` over the sorted iteration). Returns
(bidVolume, askVolume, netVolume, midPrice). -/
def getDepthWithin (ob : ManagedOrderbook) (percent : ℚ) :
    Option (ℚ × ℚ × ℚ × ℚ) :=
  if ob.is_valid = false ∨ ob.bids = [] ∨ ob.asks = [] then none
  else
    match getMid ob with
    | none => none
    | some mid =>
      let lower := mid * (1 - percent / 100)
      let upper := mid * (1 + percent / 100)
      let bidVol := ((sortByKey ob.bids).takeWhile (fun e => lower ≤ -e.1)).foldl
        (fun s e => s + e.2) 0
      let askVol := ((sortByKey ob.asks).takeWhile (fun e => e.1 ≤ upper)).foldl
        (fun s e => s + e.2) 0
      some (bidVol, askVol, bidVol - askVol, mid)

/-! Concrete seed data for the bootstrap scenario (spec section 8,
scenario 1): snapshot S = 100 with bid (50000, 1.0) and ask (50001, 1.0). -/

def seedSnapshot : OrderbookSnapshot :=
  { last_update_id := 100
    bids := [⟨50000, 1⟩]
    asks := [⟨50001, 1⟩] }

/-- A buffered diff that is *older* than the snapshot (u = 99 ≤ S = 100)
but carries a bid change; the spec demands it be discarded. -/
def staleDiff : OrderbookUpdate :=
  { event_time := 1, first_update_id := 99, last_update_id := 99,
    prev_last_update_id := 98, bids := [⟨40000, 7⟩], asks := [] }

/-- The same stale diff with empty level lists. -/
def staleDiffEmpty : OrderbookUpdate :=
  { event_time := 1, first_update_id := 99, last_update_id := 99,
    prev_last_update_id := 98, bids := [], asks := [] }

/-- Bridging diff U = 100 ≤ S+1 ≤ u = 102. -/
def bridgeDiff : OrderbookUpdate :=
  { event_time := 2, first_update_id := 100, last_update_id := 102,
    prev_last_update_id := 99, bids := [⟨50000, 3/2⟩], asks := [⟨50001, 0⟩] }

/-- Chained diff U = u = 103, pu = 102. -/
def chainDiff : OrderbookUpdate :=
  { event_time := 3, first_update_id := 103, last_update_id := 103,
    prev_last_update_id := 102, bids := [⟨49999, 2⟩], asks := [] }

/-- Book state after bootstrapping a snapshot over a given pending queue. -/
def bootBook (snap : OrderbookSnapshot) (pending : List OrderbookUpdate) : ManagedOrderbook :=
  initializeOrderbook { emptyBook with pending_updates := pending } snap

/-- Book state after bootstrapping the seed snapshot over a given pending
queue. -/
def bootFromPending (pending : List OrderbookUpdate) : ManagedOrderbook :=
  bootBook seedSnapshot pending

/-- An externally visible event hitting one symbol's book: either a depth
diff from the WebSocket stream (`process_update`) or a completed REST
resync (`initialize_orderbook`). -/
inductive OBEvent where
  | diff (u : OrderbookUpdate)
  | resync (snap : OrderbookSnapshot)
deriving Repr

def stepEvent (ob : ManagedOrderbook) : OBEvent → ManagedOrderbook
  | .diff u => (processUpdate ob u).1
  | .resync s => initializeOrderbook ob s

def runEvents (ob : ManagedOrderbook) (es : List OBEvent) : ManagedOrderbook :=
  es.foldl stepEvent ob

/-- All level quantities of a diff are non-negative (exchange quantities
are non-negative decimal strings). -/
def nonnegUpdate (u : OrderbookUpdate) : Prop :=
  (∀ l ∈ u.bids, 0 ≤ l.quantity) ∧ (∀ l ∈ u.asks, 0 ≤ l.quantity)

def nonnegEvent : OBEvent → Prop
  | .diff u => nonnegUpdate u
  | .resync _ => True

/-- Every stored quantity on a side is strictly positive. -/
def posSide (m : Side) : Prop := ∀ e ∈ m, 0 < e.2

/-- Invariant carried through the book's evolution: both sides positive
and every buffered diff has non-negative quantities. -/
def goodBook (ob : ManagedOrderbook) : Prop :=
  posSide ob.bids ∧ posSide ob.asks ∧ ∀ u ∈ ob.pending_updates, nonnegUpdate u

/-- C1: the spec says a buffered diff with `lastUpdateId u ≤ S` is
discarded, changing neither the stored levels nor `lastUpdateId`.  The
shipped `_apply_update` has no such check: a stale pending diff with
`firstUpdateId ≤ S + 1` is applied during bootstrap, mutating the levels
and rewinding `lastUpdateId` to 99 — exactly what
`tests/test_orderbook.py` (`test_drop_old_events`) asserts must not
happen.  With an empty stale diff the bridge and chain diffs do produce
the claimed final state, which the second half of the theorem records. -/
theorem claim_C1_code_bug_eval :
    (lookupKey (bootFromPending [staleDiff]).bids (-40000) = some 7 ∧
      (bootFromPending [staleDiff]).last_update_id = 99 ∧
      (bootFromPending [staleDiff]).is_valid = true) ∧
    (lookupKey (bootFromPending [staleDiffEmpty, bridgeDiff, chainDiff]).bids (-50000)
        = some (3/2) ∧
      lookupKey (bootFromPending [staleDiffEmpty, bridgeDiff, chainDiff]).bids (-49999)
        = some 2 ∧
      (bootFromPending [staleDiffEmpty, bridgeDiff, chainDiff]).asks = [] ∧
      (bootFromPending [staleDiffEmpty, bridgeDiff, chainDiff]).last_update_id = 103 ∧
      (bootFromPending [staleDiffEmpty, bridgeDiff, chainDiff]).is_valid = true) := by
  norm_num [bootFromPending, bootBook, initializeOrderbook, emptyBook, seedSnapshot, staleDiff,
    staleDiffEmpty, bridgeDiff, chainDiff, applyUpdate, applyBidLevels, applyAskLevels,
    upsert, removeKey, lookupKey, List.foldl, List.filter]

/-! ### C2: sequence-gap handling -/

/-- C2, amended: a diff whose `prevLastUpdateId` mismatches is a gap only
when additionally `firstUpdateId > lastUpdateId + 1`; in that case the
diff is not applied, the book is marked unsynced, `process_update`
requests a rebuild, every query returns the not-ready signal, and further
diffs are only buffered, never applied, until a resync. -/
theorem claim_C2_amended (ob : ManagedOrderbook) (u u' : OrderbookUpdate)
    (hv : ob.is_valid = true)
    (hpu : u.prev_last_update_id ≠ ob.last_update_id)
    (hgap : ob.last_update_id + 1 < u.first_update_id) :
    (applyUpdate ob u).1 = false ∧
    (applyUpdate ob u).2.bids = ob.bids ∧
    (applyUpdate ob u).2.asks = ob.asks ∧
    (applyUpdate ob u).2.last_update_id = ob.last_update_id ∧
    (applyUpdate ob u).2.is_valid = false ∧
    (processUpdate ob u).1 = (applyUpdate ob u).2 ∧
    (processUpdate ob u).2 = true ∧
    getBestBidAsk (applyUpdate ob u).2 = none ∧
    getMid (applyUpdate ob u).2 = none ∧
    getOrderbookView (applyUpdate ob u).2 = none ∧
    (∀ p, getDepthWithin (applyUpdate ob u).2 p = none) ∧
    (processUpdate (applyUpdate ob u).2 u').1.bids = ob.bids ∧
    (processUpdate (applyUpdate ob u).2 u').1.asks = ob.asks ∧
    (processUpdate (applyUpdate ob u).2 u').1.is_valid = false ∧
    (processUpdate (applyUpdate ob u).2 u').2 = true := by
  simp [applyUpdate, hpu, hgap, processUpdate, hv, getBestBidAsk, getMid,
    getOrderbookView, getDepthWithin]

/-- A synced book at `lastUpdateId = 100` with one bid and one ask. -/
def cexBook : ManagedOrderbook :=
  { bids := [(-50000, 1)], asks := [(50001, 1)], last_update_id := 100,
    last_update_time := 0, is_valid := true, pending_updates := [] }

/-- `prevLastUpdateId = 99 ≠ 100` but `firstUpdateId = 100 ≤ 101`. -/
def cexDiff : OrderbookUpdate :=
  { event_time := 5, first_update_id := 100, last_update_id := 105,
    prev_last_update_id := 99, bids := [⟨49999, 2⟩], asks := [] }

/-- C2 counterexample: a diff whose `prevLastUpdateId` differs from the
book's `lastUpdateId` (99 vs 100) is nevertheless applied — the levels
change, `lastUpdateId` advances to 105 and the book stays synced — so a
`pu` mismatch alone is not treated as a gap, contrary to the claim. -/
theorem claim_C2_cex :
    cexDiff.prev_last_update_id ≠ cexBook.last_update_id ∧
    (applyUpdate cexBook cexDiff).1 = true ∧
    (applyUpdate cexBook cexDiff).2.last_update_id = 105 ∧
    lookupKey (applyUpdate cexBook cexDiff).2.bids (-49999) = some 2 ∧
    ¬((applyUpdate cexBook cexDiff).2.bids = cexBook.bids ∧
      (applyUpdate cexBook cexDiff).2.is_valid = false) := by
  norm_num [cexBook, cexDiff, applyUpdate, applyBidLevels, applyAskLevels,
    upsert, lookupKey, List.foldl]

/-- Gap diff for the C2 witness: `pu = 50 ≠ 100`, `U = 102 > 101`. -/
def gapDiff : OrderbookUpdate :=
  { event_time := 6, first_update_id := 102, last_update_id := 103,
    prev_last_update_id := 50, bids := [⟨49999, 2⟩], asks := [] }

theorem claim_C2_witness :
    cexBook.is_valid = true ∧
    gapDiff.prev_last_update_id ≠ cexBook.last_update_id ∧
    cexBook.last_update_id + 1 < gapDiff.first_update_id ∧
    ((applyUpdate cexBook gapDiff).1 = false ∧
      (applyUpdate cexBook gapDiff).2.bids = cexBook.bids ∧
      (applyUpdate cexBook gapDiff).2.asks = cexBook.asks ∧
      (applyUpdate cexBook gapDiff).2.last_update_id = cexBook.last_update_id ∧
      (applyUpdate cexBook gapDiff).2.is_valid = false ∧
      (processUpdate cexBook gapDiff).1 = (applyUpdate cexBook gapDiff).2 ∧
      (processUpdate cexBook gapDiff).2 = true ∧
      getBestBidAsk (applyUpdate cexBook gapDiff).2 = none ∧
      getMid (applyUpdate cexBook gapDiff).2 = none ∧
      getOrderbookView (applyUpdate cexBook gapDiff).2 = none ∧
      (∀ p, getDepthWithin (applyUpdate cexBook gapDiff).2 p = none) ∧
      (processUpdate (applyUpdate cexBook gapDiff).2 gapDiff).1.bids = cexBook.bids ∧
      (processUpdate (applyUpdate cexBook gapDiff).2 gapDiff).1.asks = cexBook.asks ∧
      (processUpdate (applyUpdate cexBook gapDiff).2 gapDiff).1.is_valid = false ∧
      (processUpdate (applyUpdate cexBook gapDiff).2 gapDiff).2 = true) :=
  ⟨rfl, by decide, by decide,
    claim_C2_amended cexBook gapDiff gapDiff rfl (by decide) (by decide)⟩

/-! ### C3: book invariants over reachable states -/

theorem posSide_upsert {m : Side} {k v : ℚ} (h : posSide m) (hv : 0 < v) :
    posSide (upsert m k v) := by
  induction m with
  | nil => intro e he; simp [upsert] at he; simp [he, hv]
  | cons a rest ih =>
    intro e he
    simp only [upsert] at he
    by_cases hk : a.1 = k
    · simp [hk] at he
      rcases he with he | he
      · simp [he, hv]
      · exact h e (List.mem_cons_of_mem a he)
    · simp [hk] at he
      rcases he with he | he
      · exact h e (by simp [he])
      · exact ih (fun f hf => h f (List.mem_cons_of_mem a hf)) e he

theorem posSide_removeKey {m : Side} {k : ℚ} (h : posSide m) :
    posSide (removeKey m k) := by
  induction m with
  | nil => intro e he; simp [removeKey] at he
  | cons a rest ih =>
    intro e he
    simp only [removeKey] at he
    by_cases hk : a.1 = k
    · simp [hk] at he
      exact h e (List.mem_cons_of_mem a he)
    · simp [hk] at he
      rcases he with he | he
      · exact h e (by simp [he])
      · exact ih (fun f hf => h f (List.mem_cons_of_mem a hf)) e he

theorem posSide_applyBidLevels {m : Side} {ls : List OBLevel} (h : posSide m)
    (hl : ∀ l ∈ ls, 0 ≤ l.quantity) : posSide (applyBidLevels m ls) := by
  induction ls generalizing m with
  | nil => simpa [applyBidLevels] using h
  | cons a rest ih =>
    have ha := hl a (by simp)
    have hrest : ∀ l ∈ rest, 0 ≤ l.quantity := fun l hm => hl l (by simp [hm])
    simp only [applyBidLevels, List.foldl_cons]
    by_cases hz : a.quantity = 0
    · simpa [applyBidLevels, hz] using ih (posSide_removeKey h) hrest
    · have : 0 < a.quantity := lt_of_le_of_ne ha (Ne.symm hz)
      simpa [applyBidLevels, hz] using ih (posSide_upsert h this) hrest

theorem posSide_applyAskLevels {m : Side} {ls : List OBLevel} (h : posSide m)
    (hl : ∀ l ∈ ls, 0 ≤ l.quantity) : posSide (applyAskLevels m ls) := by
  induction ls generalizing m with
  | nil => simpa [applyAskLevels] using h
  | cons a rest ih =>
    have ha := hl a (by simp)
    have hrest : ∀ l ∈ rest, 0 ≤ l.quantity := fun l hm => hl l (by simp [hm])
    simp only [applyAskLevels, List.foldl_cons]
    by_cases hz : a.quantity = 0
    · simpa [applyAskLevels, hz] using ih (posSide_removeKey h) hrest
    · have : 0 < a.quantity := lt_of_le_of_ne ha (Ne.symm hz)
      simpa [applyAskLevels, hz] using ih (posSide_upsert h this) hrest

theorem goodBook_applyUpdate {ob : ManagedOrderbook} {u : OrderbookUpdate}
    (h : goodBook ob) (hu : nonnegUpdate u) : goodBook (applyUpdate ob u).2 := by
  obtain ⟨hb, ha, hp⟩ := h
  unfold applyUpdate
  by_cases hc : u.prev_last_update_id ≠ ob.last_update_id ∧ ob.last_update_id + 1 < u.first_update_id
  · simpa [hc, goodBook] using ⟨hb, ha, hp⟩
  · simpa [hc, goodBook] using
      ⟨posSide_applyBidLevels hb hu.1, posSide_applyAskLevels ha hu.2, hp⟩

theorem posSide_loadSide {ls : List OBLevel} {keyf : OBLevel → ℚ} :
    posSide ((ls.filter fun l => 0 < l.quantity).foldl (fun m l => upsert m (keyf l) l.quantity) []) := by
  have main : ∀ (ks : List OBLevel) (m : Side), posSide m → (∀ l ∈ ks, 0 < l.quantity) →
      posSide (ks.foldl (fun m l => upsert m (keyf l) l.quantity) m) := by
    intro ks
    induction ks with
    | nil => intro m hm _; simpa using hm
    | cons a rest ih =>
      intro m hm hk
      simp only [List.foldl_cons]
      exact ih _ (posSide_upsert hm (hk a (by simp))) (fun l hl => hk l (by simp [hl]))
  refine main _ [] (by intro e he; simp at he) ?_
  intro l hl
  exact of_decide_eq_true (List.mem_filter.mp hl).2

theorem goodBook_initialize {ob : ManagedOrderbook} {snap : OrderbookSnapshot}
    (hp : ∀ u ∈ ob.pending_updates, nonnegUpdate u) :
    goodBook (initializeOrderbook ob snap) := by
  unfold initializeOrderbook
  have base : goodBook
      { ob with
        bids := (snap.bids.filter fun l => 0 < l.quantity).foldl
          (fun m l => upsert m (-l.price) l.quantity) []
        asks := (snap.asks.filter fun l => 0 < l.quantity).foldl
          (fun m l => upsert m l.price l.quantity) []
        last_update_id := snap.last_update_id
        is_valid := true
        pending_updates := [] } := by
    refine ⟨posSide_loadSide, posSide_loadSide, ?_⟩
    intro u hu
    simp at hu
  have main : ∀ (us : List OrderbookUpdate) (b : ManagedOrderbook), goodBook b →
      (∀ u ∈ us, nonnegUpdate u) → goodBook (us.foldl (fun b u => (applyUpdate b u).2) b) := by
    intro us
    induction us with
    | nil => intro b hb _; simpa using hb
    | cons a rest ih =>
      intro b hb hu
      simp only [List.foldl_cons]
      exact ih _ (goodBook_applyUpdate hb (hu a (by simp))) (fun u h => hu u (by simp [h]))
  exact main _ _ base hp

theorem goodBook_processUpdate {ob : ManagedOrderbook} {u : OrderbookUpdate}
    (h : goodBook ob) (hu : nonnegUpdate u) : goodBook (processUpdate ob u).1 := by
  obtain ⟨hb, ha, hp⟩ := h
  unfold processUpdate
  by_cases hv : ob.is_valid = false
  · rw [if_pos hv]
    refine ⟨hb, ha, ?_⟩
    intro w hw
    simp at hw
    rcases hw with hw | hw
    · exact hp w hw
    · simpa [hw] using hu
  · rw [if_neg hv]
    exact goodBook_applyUpdate ⟨hb, ha, hp⟩ hu

/-- C3, amended: over every state reachable from the empty book by resyncs
and diffs whose level quantities are non-negative, every quantity stored
in bids or asks is strictly positive (zero-quantity entries are removed
or filtered, never stored).  The `bestBid < bestAsk` half of the original
claim is refuted by `claim_C3_cex`: nothing in the code enforces it. -/
theorem claim_C3_amended (es : List OBEvent) (h : ∀ e ∈ es, nonnegEvent e) :
    posSide (runEvents emptyBook es).bids ∧ posSide (runEvents emptyBook es).asks := by
  have main : ∀ (es : List OBEvent) (ob : ManagedOrderbook), goodBook ob →
      (∀ e ∈ es, nonnegEvent e) → goodBook (runEvents ob es) := by
    intro es
    induction es with
    | nil => intro ob hob _; simpa [runEvents] using hob
    | cons a rest ih =>
      intro ob hob he
      have hstep : goodBook (stepEvent ob a) := by
        cases a with
        | diff u => exact goodBook_processUpdate hob (he (.diff u) (by simp))
        | resync s => exact goodBook_initialize hob.2.2
      simpa [runEvents, List.foldl_cons] using
        ih _ hstep (fun e hm => he e (by simp [hm]))
  have hstart : goodBook emptyBook := by
    refine ⟨?_, ?_, ?_⟩ <;> intro e he <;> simp [emptyBook] at he
  obtain ⟨hb, ha, _⟩ := main es emptyBook hstart h
  exact ⟨hb, ha⟩

/-- A diff that crosses the book: inserts bid 50002 above the resting ask
50001 with a valid sequence chain. -/
def crossDiff : OrderbookUpdate :=
  { event_time := 7, first_update_id := 101, last_update_id := 101,
    prev_last_update_id := 100, bids := [⟨50002, 1⟩], asks := [] }

/-- C3 counterexample: from the seed snapshot, one perfectly chained diff
leaves a synced book whose best bid (50002) is not below its best ask
(50001) — the claimed `bestBid < bestAsk` invariant fails on a reachable
state. -/
theorem claim_C3_cex :
    (runEvents emptyBook [.resync seedSnapshot, .diff crossDiff]).is_valid = true ∧
    getBestBidAsk (runEvents emptyBook [.resync seedSnapshot, .diff crossDiff])
      = some (50002, 50001) ∧
    ¬((50002 : ℚ) < 50001) := by
  norm_num [runEvents, stepEvent, initializeOrderbook, processUpdate, emptyBook,
    seedSnapshot, crossDiff, applyUpdate, applyBidLevels, applyAskLevels, upsert,
    getBestBidAsk, minKeyD, List.foldl, List.filter]
  intro h
  simp at h

theorem claim_C3_witness :
    (∀ e ∈ [OBEvent.resync seedSnapshot, OBEvent.diff crossDiff], nonnegEvent e) ∧
    (posSide (runEvents emptyBook [.resync seedSnapshot, .diff crossDiff]).bids ∧
      posSide (runEvents emptyBook [.resync seedSnapshot, .diff crossDiff]).asks) :=
  ⟨by intro e he
      simp at he
      rcases he with he | he <;> simp [he, nonnegEvent, nonnegUpdate, crossDiff],
    claim_C3_amended _ (by
      intro e he
      simp at he
      rcases he with he | he <;> simp [he, nonnegEvent, nonnegUpdate, crossDiff])⟩

/-! ### C10: best bid / ask and mid queries -/

theorem minKeyD_eq_minD (m : Side) : minKeyD m = minD (m.map fun e => e.1) := by
  cases m with
  | nil => rfl
  | cons a rest => simp [minKeyD, minD, List.foldl_map]

theorem foldl_max_neg (xs : List ℚ) (a : ℚ) :
    (xs.map fun x => -x).foldl max (-a) = -(xs.foldl min a) := by
  induction xs generalizing a with
  | nil => rfl
  | cons x rest ih => simp only [List.map_cons, List.foldl_cons, max_neg_neg, ih]

theorem maxD_map_neg (l : List ℚ) : maxD (l.map fun x => -x) = -(minD l) := by
  cases l with
  | nil => simp [maxD, minD]
  | cons x rest => simpa [maxD, minD] using foldl_max_neg rest x

/-- C10: best-bid/ask and mid return `None` when the book is unsynced or
either side is empty; otherwise they return the highest stored bid price,
the lowest stored ask price, and their arithmetic mean. -/
theorem claim_C10 (ob : ManagedOrderbook) :
    ((ob.is_valid = false ∨ ob.bids = [] ∨ ob.asks = []) →
      getBestBidAsk ob = none ∧ getMid ob = none) ∧
    (ob.is_valid = true → ob.bids ≠ [] → ob.asks ≠ [] →
      getBestBidAsk ob
          = some (maxD (ob.bids.map fun e => -e.1), minD (ob.asks.map fun e => e.1)) ∧
      getMid ob
          = some ((maxD (ob.bids.map fun e => -e.1) + minD (ob.asks.map fun e => e.1)) / 2)) := by
  constructor
  · intro h
    have : getBestBidAsk ob = none := by
      unfold getBestBidAsk
      rcases h with h | h | h <;> simp [h]
    simp [getMid, this]
  · intro hv hb ha
    have hbid : maxD (ob.bids.map fun e => -e.1) = -(minKeyD ob.bids) := by
      have : (ob.bids.map fun e => -e.1) = ((ob.bids.map fun e => e.1).map fun x => -x) := by
        simp
      rw [this, maxD_map_neg, minKeyD_eq_minD]
    have hask : minD (ob.asks.map fun e => e.1) = minKeyD ob.asks :=
      (minKeyD_eq_minD ob.asks).symm
    have hbest : getBestBidAsk ob = some (-(minKeyD ob.bids), minKeyD ob.asks) := by
      unfold getBestBidAsk
      simp [hv, hb, ha]
    rw [hbid, hask, hbest]
    simp [getMid, hbest]

theorem claim_C10_witness :
    cexBook.is_valid = true ∧ cexBook.bids ≠ [] ∧ cexBook.asks ≠ [] ∧
    (getBestBidAsk cexBook
        = some (maxD (cexBook.bids.map fun e => -e.1), minD (cexBook.asks.map fun e => e.1)) ∧
      getMid cexBook
        = some ((maxD (cexBook.bids.map fun e => -e.1)
            + minD (cexBook.asks.map fun e => e.1)) / 2)) :=
  ⟨rfl, by simp [cexBook], by simp [cexBook],
    (claim_C10 cexBook).2 rfl (by simp [cexBook]) (by simp [cexBook])⟩

/-! ### VWAP (src/indicators/vwap.py)

`Decimal` arithmetic is exact, so prices, quantities and the running
cumulative sums embed as `ℚ`.  The wall clock consulted by
`_check_day_rollover` (`get_day_start_ms()`) is passed explicitly as
`nowDayStart`. -/

structure AggTrade where
  price : ℚ
  quantity : ℚ
  timestamp : ℕ
deriving DecidableEq, Repr

/-- `get_day_start_ms`: floor a millisecond timestamp to its UTC day. -/
def dayStartOf (ts : ℕ) : ℕ := (ts / 86400000) * 86400000

structure VWAPData where
  vwap : ℚ
  cumulative_tp_volume : ℚ
  cumulative_volume : ℚ
  high : ℚ
  low : ℚ
  trade_count : ℕ
  start_time : ℕ
  last_update_time : ℕ
deriving DecidableEq, Repr

structure VWAPCalculator where
  current_day_data : Option VWAPData
  previous_day_data : Option VWAPData
  current_day_start : ℕ
deriving DecidableEq, Repr

def initVWAP : VWAPCalculator :=
  { current_day_data := none, previous_day_data := none, current_day_start := 0 }

/-- `VWAPCalculator._check_day_rollover`. -/
def checkDayRollover (nowDayStart : ℕ) (c : VWAPCalculator) : VWAPCalculator :=
  if c.current_day_start ≠ nowDayStart then
    { current_day_data := none
      previous_day_data :=
        if c.current_day_data.isSome then c.current_day_data else c.previous_day_data
      current_day_start := nowDayStart }
  else c

/-- `VWAPCalculator.add_trade`: roll the day over if the wall clock moved,
drop trades from a different day, then either open the day's state with
this trade or accumulate `cumulativePV`, `cumulativeV`, recompute
`vwap = cumulativePV / cumulativeV` and fold `high` / `low`. -/
def addTrade (nowDayStart : ℕ) (c : VWAPCalculator) (t : AggTrade) : VWAPCalculator :=
  let c := checkDayRollover nowDayStart c
  if dayStartOf t.timestamp ≠ c.current_day_start then c
  else
    match c.current_day_data with
    | none =>
      { c with current_day_data := some ({
          vwap := t.price
          cumulative_tp_volume := t.price * t.quantity
          cumulative_volume := t.quantity
          high := t.price
          low := t.price
          trade_count := 1
          start_time := c.current_day_start
          last_update_time := t.timestamp }) }
    | some d =>
      { c with current_day_data := some ({
          vwap := (d.cumulative_tp_volume + t.price * t.quantity)
            / (d.cumulative_volume + t.quantity)
          cumulative_tp_volume := d.cumulative_tp_volume + t.price * t.quantity
          cumulative_volume := d.cumulative_volume + t.quantity
          high := max d.high t.price
          low := min d.low t.price
          trade_count := d.trade_count + 1
          start_time := d.start_time
          last_update_time := t.timestamp }) }

/-- `VWAPCalculator.add_trades`. -/
def addTrades (nowDayStart : ℕ) (c : VWAPCalculator) (ts : List AggTrade) : VWAPCalculator :=
  ts.foldl (addTrade nowDayStart) c

/-- Folding same-day trades with positive quantities accumulates the
cumulative sums, keeps `vwap = cumulativePV / cumulativeV`, and the
`high` / `low` rails enclose every trade price. -/
theorem vwap_fold_invariant (D : ℕ) (trades : List AggTrade)
    (hdays : ∀ t ∈ trades, dayStartOf t.timestamp = D)
    (hq : ∀ t ∈ trades, 0 < t.quantity)
    (c : VWAPCalculator) (hday : c.current_day_start = D)
    (d : VWAPData) (hd : c.current_day_data = some d)
    (hv : 0 < d.cumulative_volume)
    (hw : d.vwap = d.cumulative_tp_volume / d.cumulative_volume) :
    ∃ d2, (addTrades D c trades).current_day_data = some d2 ∧
      d2.cumulative_tp_volume
          = d.cumulative_tp_volume + (trades.map fun t => t.price * t.quantity).sum ∧
      d2.cumulative_volume
          = d.cumulative_volume + (trades.map fun t => t.quantity).sum ∧
      0 < d2.cumulative_volume ∧
      d2.vwap = d2.cumulative_tp_volume / d2.cumulative_volume ∧
      d2.low ≤ d.low ∧ d.high ≤ d2.high ∧
      (∀ t ∈ trades, d2.low ≤ t.price ∧ t.price ≤ d2.high) := by
  induction trades generalizing c d with
  | nil =>
    exact ⟨d, by simpa [addTrades] using hd, by simp, by simp, hv, hw, le_refl _,
      le_refl _, by simp⟩
  | cons t rest ih =>
    have ht : dayStartOf t.timestamp = D := hdays t (by simp)
    have htq : 0 < t.quantity := hq t (by simp)
    have hstep : addTrade D c t =
        { c with current_day_data := some ({
            vwap := (d.cumulative_tp_volume + t.price * t.quantity)
              / (d.cumulative_volume + t.quantity)
            cumulative_tp_volume := d.cumulative_tp_volume + t.price * t.quantity
            cumulative_volume := d.cumulative_volume + t.quantity
            high := max d.high t.price
            low := min d.low t.price
            trade_count := d.trade_count + 1
            start_time := d.start_time
            last_update_time := t.timestamp }) } := by
      unfold addTrade checkDayRollover
      simp [hday, ht, hd]
    have hrest : ∀ x ∈ rest, dayStartOf x.timestamp = D := fun x hx => hdays x (by simp [hx])
    have hrq : ∀ x ∈ rest, 0 < x.quantity := fun x hx => hq x (by simp [hx])
    have hday2 : (addTrade D c t).current_day_start = D := by rw [hstep]; exact hday
    have hd2 : (addTrade D c t).current_day_data = some ({
        vwap := (d.cumulative_tp_volume + t.price * t.quantity)
          / (d.cumulative_volume + t.quantity)
        cumulative_tp_volume := d.cumulative_tp_volume + t.price * t.quantity
        cumulative_volume := d.cumulative_volume + t.quantity
        high := max d.high t.price
        low := min d.low t.price
        trade_count := d.trade_count + 1
        start_time := d.start_time
        last_update_time := t.timestamp }) := by rw [hstep]
    obtain ⟨d2, hdata, hpv, hvv, hpos, hvw, hlo, hhi, hall⟩ :=
      ih hrest hrq (addTrade D c t) hday2 _ hd2 (add_pos hv htq) rfl
    have hpv2 : d2.cumulative_tp_volume
        = d.cumulative_tp_volume + t.price * t.quantity
          + (rest.map fun x => x.price * x.quantity).sum := by rw [hpv]
    have hvv2 : d2.cumulative_volume
        = d.cumulative_volume + t.quantity
          + (rest.map fun x => x.quantity).sum := by rw [hvv]
    have hlo2 : d2.low ≤ min d.low t.price := hlo
    have hhi2 : max d.high t.price ≤ d2.high := hhi
    refine ⟨d2, ?_, ?_, ?_, hpos, hvw, ?_, ?_, ?_⟩
    · simpa [addTrades, List.foldl_cons] using hdata
    · rw [hpv2]; simp only [List.map_cons, List.sum_cons]; ring
    · rw [hvv2]; simp only [List.map_cons, List.sum_cons]; ring
    · exact le_trans hlo2 (min_le_left _ _)
    · exact le_trans (le_max_left _ _) hhi2
    · intro x hx
      rcases List.mem_cons.mp hx with hx | hx
      · subst hx
        exact ⟨le_trans hlo2 (min_le_right _ _), le_trans (le_max_right _ _) hhi2⟩
      · exact hall x hx

/-- Weighted-mean bound: with non-negative weights summing positive and
every price within the rails, the ratio of sums stays within the rails. -/
theorem weighted_mean_bounds (trades : List AggTrade) (lo hi : ℚ)
    (hq : ∀ t ∈ trades, 0 < t.quantity)
    (hb : ∀ t ∈ trades, lo ≤ t.price ∧ t.price ≤ hi)
    (hv : 0 < (trades.map fun t => t.quantity).sum) :
    lo ≤ (trades.map fun t => t.price * t.quantity).sum
        / (trades.map fun t => t.quantity).sum ∧
    (trades.map fun t => t.price * t.quantity).sum
        / (trades.map fun t => t.quantity).sum ≤ hi := by
  have hupper : (trades.map fun t => t.price * t.quantity).sum
      ≤ (trades.map fun t => hi * t.quantity).sum := by
    apply List.sum_le_sum
    intro t hmem
    exact mul_le_mul_of_nonneg_right (hb t hmem).2 (le_of_lt (hq t hmem))
  have hlower : (trades.map fun t => lo * t.quantity).sum
      ≤ (trades.map fun t => t.price * t.quantity).sum := by
    apply List.sum_le_sum
    intro t hmem
    exact mul_le_mul_of_nonneg_right (hb t hmem).1 (le_of_lt (hq t hmem))
  have hhi : (trades.map fun t => hi * t.quantity).sum
      = hi * (trades.map fun t => t.quantity).sum := by
    rw [← List.sum_map_mul_left]
  have hlo : (trades.map fun t => lo * t.quantity).sum
      = lo * (trades.map fun t => t.quantity).sum := by
    rw [← List.sum_map_mul_left]
  constructor
  · rw [le_div_iff₀ hv]
    calc lo * (trades.map fun t => t.quantity).sum
        = (trades.map fun t => lo * t.quantity).sum := hlo.symm
      _ ≤ _ := hlower
  · rw [div_le_iff₀ hv]
    calc (trades.map fun t => t.price * t.quantity).sum
        ≤ (trades.map fun t => hi * t.quantity).sum := hupper
      _ = hi * (trades.map fun t => t.quantity).sum := hhi

/-- The three seed trades of spec section 8, scenario 2, placed on UTC day
number 1. -/
def vwapSeedTrades : List AggTrade :=
  [⟨50000, 1, 86400000⟩, ⟨51000, 2, 86400001⟩, ⟨49000, 1, 86400002⟩]

/-- C6: for every non-empty list of same-day trades with positive
quantities fed to a fresh calculator, `cumulativePV` and `cumulativeV`
are the trade sums, `vwap` is their ratio and lies between the extreme
observed trade prices; and on the seed trades the state is
`cumulativePV = 201000`, `cumulativeV = 4`, `vwap = 50250`. -/
theorem claim_C6 :
    (∀ (D : ℕ) (trades : List AggTrade), trades ≠ [] →
      (∀ t ∈ trades, dayStartOf t.timestamp = D) →
      (∀ t ∈ trades, 0 < t.quantity) →
      ∃ d, (addTrades D initVWAP trades).current_day_data = some d ∧
        d.cumulative_tp_volume = (trades.map fun t => t.price * t.quantity).sum ∧
        d.cumulative_volume = (trades.map fun t => t.quantity).sum ∧
        d.vwap = (trades.map fun t => t.price * t.quantity).sum
          / (trades.map fun t => t.quantity).sum ∧
        (∀ t ∈ trades, d.low ≤ t.price ∧ t.price ≤ d.high) ∧
        d.low ≤ d.vwap ∧ d.vwap ≤ d.high) ∧
    ((addTrades 86400000 initVWAP vwapSeedTrades).current_day_data.map fun d =>
        (d.cumulative_tp_volume, d.cumulative_volume, d.vwap))
      = some (201000, 4, 50250) := by
  constructor
  · intro D trades hne hdays hq
    match trades, hne with
    | t :: rest, _ =>
      have ht : dayStartOf t.timestamp = D := hdays t (by simp)
      have htq : 0 < t.quantity := hq t (by simp)
      have hstep : addTrade D initVWAP t =
          { current_day_data := some ({
                vwap := t.price
                cumulative_tp_volume := t.price * t.quantity
                cumulative_volume := t.quantity
                high := t.price
                low := t.price
                trade_count := 1
                start_time := D
                last_update_time := t.timestamp })
            previous_day_data := none
            current_day_start := D } := by
        unfold addTrade checkDayRollover initVWAP
        by_cases hD : (0 : ℕ) = D
        · subst hD; simp [ht]
        · simp [hD, ht]
      have hrest : ∀ x ∈ rest, dayStartOf x.timestamp = D := fun x hx => hdays x (by simp [hx])
      have hrq : ∀ x ∈ rest, 0 < x.quantity := fun x hx => hq x (by simp [hx])
      have hday2 : (addTrade D initVWAP t).current_day_start = D := by rw [hstep]
      have hd2 : (addTrade D initVWAP t).current_day_data = some ({
          vwap := t.price
          cumulative_tp_volume := t.price * t.quantity
          cumulative_volume := t.quantity
          high := t.price
          low := t.price
          trade_count := 1
          start_time := D
          last_update_time := t.timestamp }) := by rw [hstep]
      have hw1 : t.price = t.price * t.quantity / t.quantity := by
        rw [mul_div_assoc, div_self (ne_of_gt htq), mul_one]
      obtain ⟨d2, hdata, hpv, hvv, hpos, hvw, hlo, hhi, hall⟩ :=
        vwap_fold_invariant D rest hrest hrq (addTrade D initVWAP t) hday2 _
          hd2 htq hw1
      have hpv2 : d2.cumulative_tp_volume
          = ((t :: rest).map fun x => x.price * x.quantity).sum := by
        simp only [List.map_cons, List.sum_cons]
        rw [hpv]
      have hvv2 : d2.cumulative_volume = ((t :: rest).map fun x => x.quantity).sum := by
        simp only [List.map_cons, List.sum_cons]
        rw [hvv]
      have hlo1 : d2.low ≤ t.price := hlo
      have hhi1 : t.price ≤ d2.high := hhi
      have hballast : ∀ x ∈ t :: rest, d2.low ≤ x.price ∧ x.price ≤ d2.high := by
        intro x hx
        rcases List.mem_cons.mp hx with hx | hx
        · subst hx
          exact ⟨hlo1, hhi1⟩
        · exact hall x hx
      have hsum : 0 < ((t :: rest).map fun x => x.quantity).sum := by
        rw [← hvv2]; exact hpos
      obtain ⟨hL, hH⟩ := weighted_mean_bounds (t :: rest) d2.low d2.high hq hballast hsum
      refine ⟨d2, by simpa [addTrades, List.foldl_cons] using hdata, hpv2, hvv2, ?_, 
        hballast, ?_, ?_⟩
      · rw [hvw, hpv2, hvv2]
      · rw [hvw, hpv2, hvv2]; exact hL
      · rw [hvw, hpv2, hvv2]; exact hH
  · norm_num [addTrades, addTrade, checkDayRollover, initVWAP, vwapSeedTrades,
      dayStartOf, List.foldl]

theorem claim_C6_witness :
    (vwapSeedTrades ≠ [] ∧
      (∀ t ∈ vwapSeedTrades, dayStartOf t.timestamp = 86400000) ∧
      (∀ t ∈ vwapSeedTrades, 0 < t.quantity)) ∧
    (∃ d, (addTrades 86400000 initVWAP vwapSeedTrades).current_day_data = some d ∧
      d.cumulative_tp_volume = (vwapSeedTrades.map fun t => t.price * t.quantity).sum ∧
      d.cumulative_volume = (vwapSeedTrades.map fun t => t.quantity).sum ∧
      d.vwap = (vwapSeedTrades.map fun t => t.price * t.quantity).sum
        / (vwapSeedTrades.map fun t => t.quantity).sum ∧
      (∀ t ∈ vwapSeedTrades, d.low ≤ t.price ∧ t.price ≤ d.high) ∧
      d.low ≤ d.vwap ∧ d.vwap ≤ d.high) :=
  ⟨⟨by simp [vwapSeedTrades], 
    by intro t h; fin_cases h <;> decide,
    by intro t h; fin_cases h <;> norm_num [vwapSeedTrades]⟩,
   claim_C6.1 86400000 vwapSeedTrades (by simp [vwapSeedTrades])
      (by intro t h; fin_cases h <;> decide)
      (by intro t h; fin_cases h <;> norm_num [vwapSeedTrades])⟩


/-! ### Volume profile (src/indicators/volume_profile.py)

`Decimal` arithmetic embeds as `ℚ`.  `_price_to_tick` uses
`Decimal.quantize(Decimal("1"))`, i.e. rounding to the nearest integer
with ties to even.  `value_area_percent` is an integer percentage and the
source's `Decimal(str(pct / 100))` is the exact rational `pct / 100` for
the percentages representable at two decimal digits (70 among them). -/

/-- Nearest integer, ties to even: Python `Decimal.quantize(Decimal("1"))`
with the default `ROUND_HALF_EVEN`. -/
def roundHalfEven (x : ℚ) : ℤ :=
  let f := ⌊x⌋
  let r := x - f
  if r < 1/2 then f
  else if 1/2 < r then f + 1
  else if Even f then f else f + 1

/-- `VolumeProfile._price_to_tick`. -/
def priceToTick (tick : ℚ) (p : ℚ) : ℚ := (roundHalfEven (p / tick) : ℚ) * tick

/-- Add `v` at the first occurrence of key `k`, or append `(k, v)`;
mirrors `levels[tick_price] = 0` followed by `levels[tick_price] += qty`. -/
def addAt (m : List (ℚ × ℚ)) (k v : ℚ) : List (ℚ × ℚ) :=
  match m with
  | [] => [(k, v)]
  | e :: rest => if e.1 = k then (e.1, e.2 + v) :: rest else e :: addAt rest k v

/-- The `VolumeProfile` state consulted by `calculate`; `poc`, `vah`,
`val` are recomputed on demand rather than cached. -/
structure VolumeProfileState where
  tick_size : ℚ
  value_area_percent : ℕ
  levels : List (ℚ × ℚ)
  total_volume : ℚ
  trade_count : ℕ
  high : ℚ
  low : ℚ
deriving DecidableEq, Repr

def initProfile (tick : ℚ) (pct : ℕ) : VolumeProfileState :=
  { tick_size := tick, value_area_percent := pct, levels := [],
    total_volume := 0, trade_count := 0, high := 0, low := 999999999 }

/-- `VolumeProfile.add_trade`. -/
def vpAddTrade (s : VolumeProfileState) (t : AggTrade) : VolumeProfileState :=
  { s with
    levels := addAt s.levels (priceToTick s.tick_size t.price) t.quantity
    total_volume := s.total_volume + t.quantity
    trade_count := s.trade_count + 1
    high := max s.high t.price
    low := min s.low t.price }

/-- `VolumeProfile.calculate`, POC part: Python
`max(levels.keys(), key=...)` keeps the first maximum in dict insertion
order, replacing only on a strictly greater volume. -/
def pocCalc (levels : List (ℚ × ℚ)) : Option ℚ :=
  match levels with
  | [] => none
  | e :: rest => some ((rest.foldl (fun best f => if best.2 < f.2 then f else best) e).1)

/-- Probe volume two buckets above the window: the source's `up_vol`
accumulation (`for i in range(1, 3): if high_index + i < len: ...`). -/
def upVolOf (vols : List ℚ) (high : ℕ) : ℚ :=
  if high < vols.length - 1 then
    vols.getD (high + 1) 0 + (if high + 2 < vols.length then vols.getD (high + 2) 0 else 0)
  else 0

/-- Probe volume two buckets below the window: the source's `down_vol`. -/
def downVolOf (vols : List ℚ) (low : ℕ) : ℚ :=
  if 0 < low then
    vols.getD (low - 1) 0 + (if 2 ≤ low then vols.getD (low - 2) 0 else 0)
  else 0

/-- One upward expansion: raise `high` by one bucket, then by a second
one only if the target is still unreached and `high_index + 2 < len`
still holds for the already-raised index (the source mutates
`high_index` inside the inner loop).  Returns the new `high` and
accumulated volume. -/
def expandUpStep (vols : List ℚ) (target : ℚ) (high : ℕ) (vav : ℚ) : ℕ × ℚ :=
  let v1 := vav + vols.getD (high + 1) 0
  if target ≤ v1 then (high + 1, v1)
  else if high + 3 < vols.length then (high + 2, v1 + vols.getD (high + 2) 0)
  else (high + 1, v1)

/-- One downward expansion, mirror image of `expandUpStep`. -/
def expandDownStep (vols : List ℚ) (target : ℚ) (low : ℕ) (vav : ℚ) : ℕ × ℚ :=
  let v1 := vav + vols.getD (low - 1) 0
  if target ≤ v1 then (low - 1, v1)
  else if 2 ≤ low - 1 then (low - 2, v1 + vols.getD (low - 2) 0)
  else (low - 1, v1)

/-- The expansion loop of `VolumeProfile._calculate_value_area`, embedded
with explicit fuel (each iteration widens the index window, so
`vols.length + 1` fuel always suffices).  State: window `[low, high]`
into the price-sorted bucket list and the accumulated window volume. -/
def vaLoop (vols : List ℚ) (target : ℚ) (fuel low high : ℕ) (vav : ℚ) : ℕ × ℕ × ℚ :=
  match fuel with
  | 0 => (low, high, vav)
  | fuel + 1 =>
    if target ≤ vav then (low, high, vav)
    else if ¬(high < vols.length - 1) ∧ ¬(0 < low) then (low, high, vav)
    else if downVolOf vols low ≤ upVolOf vols high ∧ high < vols.length - 1 then
      vaLoop vols target fuel low (expandUpStep vols target high vav).1
        (expandUpStep vols target high vav).2
    else if 0 < low then
      vaLoop vols target fuel (expandDownStep vols target low vav).1 high
        (expandDownStep vols target low vav).2
    else (low, high, vav)

/-- `VolumeProfile._calculate_value_area` composed with `calculate`:
sort the buckets by price, locate the POC index, expand, and read the
prices at the final window edges as `(VAL, VAH)`. -/
def valueArea (levels : List (ℚ × ℚ)) (pct : ℕ) (total : ℚ) : Option (ℚ × ℚ) :=
  match pocCalc levels with
  | none => none
  | some poc =>
    let sl := sortByKey levels
    let prices := sl.map fun e => e.1
    let vols := sl.map fun e => e.2
    let pi := prices.indexOf poc
    let target := total * ((pct : ℚ) / 100)
    let r := vaLoop vols target (vols.length + 1) pi pi (vols.getD pi 0)
    some (prices.getD r.1 0, prices.getD r.2.1 0)

/-- Summed volume of the buckets whose price lies in `[a, b]`. -/
def volumeBetween (levels : List (ℚ × ℚ)) (a b : ℚ) : ℚ :=
  ((levels.filter fun e => a ≤ e.1 ∧ e.1 ≤ b).map fun e => e.2).sum

/-- The nine seed buckets of spec section 8, scenario 3 (tick 100,
value-area 70 percent, total volume 130). -/
def vaSeedLevels : List (ℚ × ℚ) :=
  [(49600, 5), (49700, 10), (49800, 15), (49900, 20), (50000, 30),
   (50100, 20), (50200, 15), (50300, 10), (50400, 5)]

theorem vaSeed_eval : valueArea vaSeedLevels 70 130 = some (49800, 50200) := by
  have hpoc : pocCalc vaSeedLevels = some 50000 := by
    norm_num [pocCalc, vaSeedLevels, List.foldl]
  have hsort : sortByKey vaSeedLevels = vaSeedLevels := by
    norm_num [sortByKey, vaSeedLevels, List.insertionSort, List.orderedInsert]
  have hidx : List.indexOf (50000 : ℚ)
      [49600, 49700, 49800, 49900, 50000, 50100, 50200, 50300, 50400] = 4 := by
    decide
  have hsort2 : sortByKey vaSeedLevels
      = ([(49600, 5), (49700, 10), (49800, 15), (49900, 20), (50000, 30),
          (50100, 20), (50200, 15), (50300, 10), (50400, 5)] : List (ℚ × ℚ)) := by
    rw [hsort]; rfl
  have s1 : vaLoop [5, 10, 15, 20, 30, 20, 15, 10, 5] 91 10 4 4 30
      = vaLoop [5, 10, 15, 20, 30, 20, 15, 10, 5] 91 9 4 6 65 := by
    conv_lhs => rw [vaLoop]
    norm_num [List.getD, upVolOf, downVolOf, expandUpStep, expandDownStep]
  have s2 : vaLoop [5, 10, 15, 20, 30, 20, 15, 10, 5] 91 9 4 6 65
      = vaLoop [5, 10, 15, 20, 30, 20, 15, 10, 5] 91 8 2 6 100 := by
    conv_lhs => rw [vaLoop]
    norm_num [List.getD, upVolOf, downVolOf, expandUpStep, expandDownStep]
  have s3 : vaLoop [5, 10, 15, 20, 30, 20, 15, 10, 5] 91 8 2 6 100
      = (2, 6, 100) := by
    conv_lhs => rw [vaLoop]
    norm_num
  unfold valueArea
  rw [hpoc]
  simp only [hsort2, List.map_cons, List.map_nil, List.length_cons, List.length_nil]
  rw [hidx]
  norm_num [s1, s2, s3, List.getD]


/-- Sum of the inclusive index window `vols[low..high]`. -/
def windowSum (vols : List ℚ) (low high : ℕ) : ℚ :=
  ((vols.drop low).take (high + 1 - low)).sum

theorem getD_nonneg {vols : List ℚ} (h : ∀ v ∈ vols, 0 ≤ v) (i : ℕ) :
    0 ≤ vols.getD i 0 := by
  by_cases hi : i < vols.length
  · rw [List.getD_eq_getElem _ _ hi]
    exact h _ (List.getElem_mem hi)
  · rw [List.getD_eq_default _ _ (le_of_not_lt hi)]

theorem windowSum_self {vols : List ℚ} {i : ℕ} (hi : i < vols.length) :
    windowSum vols i i = vols.getD i 0 := by
  unfold windowSum
  have h1 : i + 1 - i = 1 := by omega
  rw [h1, List.drop_eq_getElem_cons hi, List.take_succ_cons, List.take_zero,
    List.sum_cons, List.sum_nil, List.getD_eq_getElem _ _ hi, add_zero]

theorem windowSum_succ_high {vols : List ℚ} {low high : ℕ} (hlh : low ≤ high + 1)
    (hh : high + 1 < vols.length) :
    windowSum vols low (high + 1) = windowSum vols low high + vols.getD (high + 1) 0 := by
  unfold windowSum
  have h1 : high + 1 + 1 - low = (high + 1 - low) + 1 := by omega
  have hlen : high + 1 - low < (vols.drop low).length := by
    rw [List.length_drop]; omega
  rw [h1, List.sum_take_succ _ _ hlen]
  congr 1
  rw [List.getElem_drop, List.getD_eq_getElem _ _ hh]
  congr 1
  omega

theorem windowSum_pred_low {vols : List ℚ} {low high : ℕ} (h0 : 0 < low)
    (hlh : low ≤ high + 1) (hh : high < vols.length) :
    windowSum vols (low - 1) high = vols.getD (low - 1) 0 + windowSum vols low high := by
  unfold windowSum
  have hlow : low - 1 < vols.length := by omega
  have h1 : high + 1 - (low - 1) = (high + 1 - low) + 1 := by omega
  have h2 : low - 1 + 1 = low := by omega
  rw [List.drop_eq_getElem_cons hlow, h1, h2, List.take_succ_cons, List.sum_cons,
    List.getD_eq_getElem _ _ hlow]

theorem expandUpStep_spec {vols : List ℚ} (target : ℚ) {vav : ℚ} {low high : ℕ}
    (hlh : low ≤ high) (hh1 : high + 1 < vols.length)
    (hvav : vav = windowSum vols low high) :
    high + 1 ≤ (expandUpStep vols target high vav).1 ∧
    (expandUpStep vols target high vav).1 < vols.length ∧
    (expandUpStep vols target high vav).2
      = windowSum vols low (expandUpStep vols target high vav).1 := by
  simp only [expandUpStep]
  split_ifs with h1 h2
  · exact ⟨le_refl _, hh1, by rw [hvav, windowSum_succ_high (by omega) hh1]⟩
  · refine ⟨by omega, by omega, ?_⟩
    rw [hvav, @windowSum_succ_high vols low (high + 1) (by omega) (by omega),
      windowSum_succ_high (by omega) hh1]
  · exact ⟨le_refl _, hh1, by rw [hvav, windowSum_succ_high (by omega) hh1]⟩

theorem expandDownStep_spec {vols : List ℚ} (target : ℚ) {vav : ℚ} {low high : ℕ}
    (h0 : 0 < low) (hlh : low ≤ high) (hh : high < vols.length)
    (hvav : vav = windowSum vols low high) :
    (expandDownStep vols target low vav).1 < low ∧
    (expandDownStep vols target low vav).2
      = windowSum vols (expandDownStep vols target low vav).1 high := by
  simp only [expandDownStep]
  split_ifs with h1 h2
  · exact ⟨by omega, by rw [hvav, windowSum_pred_low h0 (by omega) hh, add_comm]⟩
  · refine ⟨by omega, ?_⟩
    have e1 : windowSum vols (low - 1) high
        = vols.getD (low - 1) 0 + windowSum vols low high :=
      windowSum_pred_low h0 (by omega) hh
    have e2 : windowSum vols (low - 2) high
        = vols.getD (low - 2) 0 + windowSum vols (low - 1) high := by
      have := @windowSum_pred_low vols (low - 1) high (by omega) (by omega) hh
      have hll : low - 1 - 1 = low - 2 := by omega
      rwa [hll] at this
    rw [hvav, e2, e1]
    ring
  · exact ⟨by omega, by rw [hvav, windowSum_pred_low h0 (by omega) hh, add_comm]⟩

theorem vaLoop_invariant (vols : List ℚ) (target : ℚ)
    (hpos : ∀ v ∈ vols, 0 ≤ v) :
    ∀ (fuel low high : ℕ) (vav : ℚ), low ≤ high → high < vols.length →
      vols.length - (high - low) ≤ fuel → vav = windowSum vols low high →
      (vaLoop vols target fuel low high vav).1 ≤ low ∧
      high ≤ (vaLoop vols target fuel low high vav).2.1 ∧
      (vaLoop vols target fuel low high vav).2.1 < vols.length ∧
      (vaLoop vols target fuel low high vav).1 ≤ (vaLoop vols target fuel low high vav).2.1 ∧
      (vaLoop vols target fuel low high vav).2.2
        = windowSum vols (vaLoop vols target fuel low high vav).1
            (vaLoop vols target fuel low high vav).2.1 ∧
      (target ≤ (vaLoop vols target fuel low high vav).2.2 ∨
        ((vaLoop vols target fuel low high vav).1 = 0 ∧
          (vaLoop vols target fuel low high vav).2.1 = vols.length - 1)) := by
  intro fuel
  induction fuel with
  | zero => intro low high vav hlh hh hfuel hvav; omega
  | succ fuel ih =>
    intro low high vav hlh hh hfuel hvav
    rw [vaLoop]
    split_ifs with hT hEnd hUp hDown
    · exact ⟨le_refl _, le_refl _, hh, hlh, hvav, Or.inl hT⟩
    · refine ⟨le_refl _, le_refl _, hh, hlh, hvav, Or.inr ⟨?_, ?_⟩⟩
      · show low = 0
        omega
      · show high = vols.length - 1
        omega
    · have hh1 : high + 1 < vols.length := by omega
      obtain ⟨hs1, hs2, hs3⟩ := expandUpStep_spec target hlh hh1 hvav
      obtain ⟨c1, c2, c3, c4, c5, c6⟩ := ih low (expandUpStep vols target high vav).1
        (expandUpStep vols target high vav).2 (by omega) hs2 (by omega) hs3
      exact ⟨c1, by omega, c3, c4, c5, c6⟩
    · obtain ⟨hs1, hs2⟩ := expandDownStep_spec target hDown hlh hh hvav
      obtain ⟨c1, c2, c3, c4, c5, c6⟩ := ih (expandDownStep vols target low vav).1 high
        (expandDownStep vols target low vav).2 (by omega) hh (by omega) hs2
      exact ⟨by omega, c2, c3, c4, c5, c6⟩
    · exfalso
      have hlow0 : low = 0 := by omega
      have hcanUp : high < vols.length - 1 := by omega
      have hdown0 : downVolOf vols low = 0 := by
        simp [downVolOf, hlow0]
      have hup0 : 0 ≤ upVolOf vols high := by
        unfold upVolOf
        split_ifs <;>
          first
            | exact add_nonneg (getD_nonneg hpos _) (getD_nonneg hpos _)
            | exact add_nonneg (getD_nonneg hpos _) (le_refl 0)
      exact hUp ⟨by rw [hdown0]; exact hup0, hcanUp⟩

/-- The running best of the POC fold is a member of the list and carries
the maximal volume. -/
theorem pocFold_mem_max (e : ℚ × ℚ) (rest : List (ℚ × ℚ)) :
    (rest.foldl (fun best f => if best.2 < f.2 then f else best) e) ∈ e :: rest ∧
    ∀ x ∈ e :: rest,
      x.2 ≤ (rest.foldl (fun best f => if best.2 < f.2 then f else best) e).2 := by
  induction rest generalizing e with
  | nil => exact ⟨by simp, by simp⟩
  | cons f rs ih =>
    simp only [List.foldl_cons]
    obtain ⟨hmem, hmax⟩ := ih (if e.2 < f.2 then f else e)
    have he2e : e.2 ≤ (if e.2 < f.2 then f else e).2 := by
      split_ifs with h
      · exact le_of_lt h
      · exact le_refl _
    have he2f : f.2 ≤ (if e.2 < f.2 then f else e).2 := by
      split_ifs with h
      · exact le_refl _
      · exact le_of_not_lt h
    have hb2 : (if e.2 < f.2 then f else e).2
        ≤ (rs.foldl (fun best g => if best.2 < g.2 then g else best)
            (if e.2 < f.2 then f else e)).2 :=
      hmax _ (by simp)
    constructor
    · rcases List.mem_cons.mp hmem with h | h
      · rw [h]
        split_ifs <;> simp
      · simp [h]
    · intro x hx
      rcases List.mem_cons.mp hx with h | hx2
      · subst h
        exact le_trans he2e hb2
      · rcases List.mem_cons.mp hx2 with h | h
        · subst h
          exact le_trans he2f hb2
        · exact hmax x (by simp [h])

/-- The POC fold result is the *first* list entry attaining the maximal
volume: ties are broken by insertion order, and `find?` witnesses it. -/
theorem pocFold_first (e : ℚ × ℚ) (rest : List (ℚ × ℚ)) :
    (e :: rest).find?
        (fun x => decide (x.2
          = (rest.foldl (fun best f => if best.2 < f.2 then f else best) e).2))
      = some (rest.foldl (fun best f => if best.2 < f.2 then f else best) e) := by
  induction rest generalizing e with
  | nil => simp [List.find?]
  | cons f rs ih =>
    simp only [List.foldl_cons]
    by_cases hef : e.2 < f.2
    · simp only [if_pos hef]
      have hfb : f.2 ≤ (rs.foldl (fun best g => if best.2 < g.2 then g else best) f).2 :=
        (pocFold_mem_max f rs).2 f (by simp)
      have heb : ¬(e.2
          = (rs.foldl (fun best g => if best.2 < g.2 then g else best) f).2) :=
        ne_of_lt (lt_of_lt_of_le hef hfb)
      rw [List.find?_cons_of_neg _ (by simpa using heb)]
      exact ih f
    · simp only [if_neg hef]
      have hfe : f.2 ≤ e.2 := le_of_not_lt hef
      have heb2 : e.2 ≤ (rs.foldl (fun best g => if best.2 < g.2 then g else best) e).2 :=
        (pocFold_mem_max e rs).2 e (by simp)
      by_cases heq : e.2 = (rs.foldl (fun best g => if best.2 < g.2 then g else best) e).2
      · have h1 : (e :: rs).find?
            (fun x => decide (x.2
              = (rs.foldl (fun best g => if best.2 < g.2 then g else best) e).2))
            = some e := List.find?_cons_of_pos _ (by simpa using heq)
        have h2 := ih e
        rw [h1] at h2
        rw [List.find?_cons_of_pos _ (by simpa using heq), h2]
      · have hfind : rs.find?
            (fun x => decide (x.2
              = (rs.foldl (fun best g => if best.2 < g.2 then g else best) e).2))
            = some (rs.foldl (fun best g => if best.2 < g.2 then g else best) e) := by
          have h2 := ih e
          rwa [List.find?_cons_of_neg _ (by simpa using heq)] at h2
        have hfb : ¬(f.2
            = (rs.foldl (fun best g => if best.2 < g.2 then g else best) e).2) := by
          intro hcontra
          exact heq (le_antisymm heb2 (hcontra ▸ hfe))
        rw [List.find?_cons_of_neg _ (by simpa using heq),
          List.find?_cons_of_neg _ (by simpa using hfb)]
        exact hfind

/-- Existence form of the POC computation used by both the POC and
value-area claims. -/
theorem pocCalc_spec (levels : List (ℚ × ℚ)) (hne : levels ≠ []) :
    ∃ b : ℚ × ℚ, pocCalc levels = some b.1 ∧ b ∈ levels ∧
      (∀ x ∈ levels, x.2 ≤ b.2) ∧
      levels.find? (fun x => decide (x.2 = b.2)) = some b := by
  match levels, hne with
  | e :: rest, _ =>
    refine ⟨rest.foldl (fun best f => if best.2 < f.2 then f else best) e, ?_, ?_, ?_, ?_⟩
    · rfl
    · exact (pocFold_mem_max e rest).1
    · exact (pocFold_mem_max e rest).2
    · exact pocFold_first e rest

/-- C8, amended: the POC is a bucket of greatest cumulative volume, and
among tied buckets it is the *first-inserted* one (the first entry of the
level dict attaining the maximum), not the lowest-priced one. -/
theorem claim_C8_amended (levels : List (ℚ × ℚ)) (hne : levels ≠ []) :
    ∃ b : ℚ × ℚ, pocCalc levels = some b.1 ∧ b ∈ levels ∧
      (∀ x ∈ levels, x.2 ≤ b.2) ∧
      levels.find? (fun x => decide (x.2 = b.2)) = some b :=
  pocCalc_spec levels hne

theorem claim_C8_witness :
    vaSeedLevels ≠ [] ∧
    (∃ b : ℚ × ℚ, pocCalc vaSeedLevels = some b.1 ∧ b ∈ vaSeedLevels ∧
      (∀ x ∈ vaSeedLevels, x.2 ≤ b.2) ∧
      vaSeedLevels.find? (fun x => decide (x.2 = b.2)) = some b) :=
  ⟨by simp [vaSeedLevels], claim_C8_amended vaSeedLevels (by simp [vaSeedLevels])⟩

/-- Two trades with equal quantity at distinct buckets, the higher-priced
bucket traded first. -/
def tieProfile : VolumeProfileState :=
  vpAddTrade (vpAddTrade (initProfile 10 70) ⟨50100, 10, 0⟩) ⟨50000, 10, 0⟩

/-- C8 counterexample: with levels tied at volume 10, the POC is the
first-inserted bucket 50100, not the lowest-priced bucket 50000 the claim
demands. -/
theorem claim_C8_cex :
    tieProfile.levels = [(50100, 10), (50000, 10)] ∧
    pocCalc tieProfile.levels = some 50100 ∧
    ¬(pocCalc tieProfile.levels = some 50000) := by
  have hlv : tieProfile.levels = [(50100, 10), (50000, 10)] := by
    norm_num [tieProfile, vpAddTrade, initProfile, priceToTick, roundHalfEven, addAt]
  refine ⟨hlv, ?_, ?_⟩
  · rw [hlv]
    norm_num [pocCalc, List.foldl]
  · rw [hlv]
    norm_num [pocCalc, List.foldl]

theorem head_key_le (m : List (ℚ × ℚ)) (hs : m.Pairwise (fun e f => e.1 < f.1)) :
    ∀ f ∈ m, (m.map fun e => e.1).getD 0 0 ≤ f.1 := by
  cases m with
  | nil => intro f hf; simp at hf
  | cons g gs =>
    intro f hf
    rcases List.mem_cons.mp hf with h | h
    · subst h; simp
    · simpa using le_of_lt ((List.pairwise_cons.mp hs).1 f h)

theorem getD_map_key_mem (m : List (ℚ × ℚ)) (i : ℕ) (hi : i < m.length) :
    ∃ f ∈ m, (m.map fun e => e.1).getD i 0 = f.1 := by
  have hi2 : i < (m.map fun e => e.1).length := by simpa using hi
  refine ⟨m[i], List.getElem_mem hi, ?_⟩
  rw [List.getD_eq_getElem _ _ hi2]
  simp

theorem volumeBetween_sorted (sl : List (ℚ × ℚ))
    (hs : sl.Pairwise (fun e f => e.1 < f.1)) :
    ∀ low high : ℕ, low ≤ high → high < sl.length →
    volumeBetween sl ((sl.map fun e => e.1).getD low 0)
        ((sl.map fun e => e.1).getD high 0)
      = windowSum (sl.map fun e => e.2) low high := by
  induction sl with
  | nil => intro low high _ hh; simp at hh
  | cons e rest ih =>
    intro low high hlh hh
    have hkey : ∀ f ∈ rest, e.1 < f.1 := (List.pairwise_cons.mp hs).1
    have hrs := (List.pairwise_cons.mp hs).2
    cases low with
    | zero =>
      have ha0 : ((e :: rest).map fun x => x.1).getD 0 0 = e.1 := by simp
      cases high with
      | zero =>
        rw [ha0]
        have hfilter : rest.filter (fun f => decide (e.1 ≤ f.1 ∧ f.1 ≤ e.1)) = [] := by
          rw [List.filter_eq_nil_iff]
          intro f hf
          simp only [decide_eq_true_eq, not_and]
          intro _
          exact not_le.mpr (hkey f hf)
        unfold volumeBetween
        rw [List.filter_cons_of_pos (by simp), hfilter]
        simp [windowSum]
      | succ h =>
        have hhr : h < rest.length := by simpa using Nat.lt_of_succ_lt_succ hh
        have hb : ((e :: rest).map fun x => x.1).getD (h + 1) 0
            = (rest.map fun x => x.1).getD h 0 := by
          simp [List.getD_cons_succ]
        obtain ⟨fb, hfb, hfbeq⟩ := getD_map_key_mem rest h hhr
        have hble : e.1 ≤ (rest.map fun x => x.1).getD h 0 := by
          rw [hfbeq]
          exact le_of_lt (hkey fb hfb)
        rw [ha0, hb]
        unfold volumeBetween
        rw [List.filter_cons_of_pos
          (by simp only [decide_eq_true_eq]; exact ⟨le_refl _, hble⟩)]
        have hcongr : rest.filter
              (fun f => decide (e.1 ≤ f.1 ∧ f.1 ≤ (rest.map fun x => x.1).getD h 0))
            = rest.filter
              (fun f => decide ((rest.map fun x => x.1).getD 0 0 ≤ f.1 ∧
                f.1 ≤ (rest.map fun x => x.1).getD h 0)) := by
          apply List.filter_congr
          intro f hf
          have h1 : e.1 ≤ f.1 := le_of_lt (hkey f hf)
          have h2 : (rest.map fun x => x.1).getD 0 0 ≤ f.1 := head_key_le rest hrs f hf
          simp only [decide_eq_decide]
          exact ⟨fun hx => ⟨h2, hx.2⟩, fun hx => ⟨h1, hx.2⟩⟩
        rw [hcongr]
        have hfold : ((rest.filter
              (fun f => decide ((rest.map fun x => x.1).getD 0 0 ≤ f.1 ∧
                f.1 ≤ (rest.map fun x => x.1).getD h 0))).map fun f => f.2).sum
            = volumeBetween rest ((rest.map fun x => x.1).getD 0 0)
                ((rest.map fun x => x.1).getD h 0) := rfl
        rw [List.map_cons, List.sum_cons, hfold, ih hrs 0 h (Nat.zero_le _) hhr]
        unfold windowSum
        simp only [List.map_cons, List.drop_zero]
        have harith : h + 1 + 1 - 0 = (h + 1 - 0) + 1 := by omega
        rw [harith, List.take_succ_cons, List.sum_cons]
    | succ l =>
      cases high with
      | zero => omega
      | succ h =>
        have hhr : h < rest.length := by simpa using Nat.lt_of_succ_lt_succ hh
        have hlr : l ≤ h := Nat.le_of_succ_le_succ hlh
        have ha : ((e :: rest).map fun x => x.1).getD (l + 1) 0
            = (rest.map fun x => x.1).getD l 0 := by simp [List.getD_cons_succ]
        have hb : ((e :: rest).map fun x => x.1).getD (h + 1) 0
            = (rest.map fun x => x.1).getD h 0 := by simp [List.getD_cons_succ]
        obtain ⟨fa, hfa, hfaeq⟩ := getD_map_key_mem rest l (by omega)
        have hea : ¬((rest.map fun x => x.1).getD l 0 ≤ e.1) := by
          rw [hfaeq]
          exact not_le.mpr (hkey fa hfa)
        rw [ha, hb]
        unfold volumeBetween
        rw [List.filter_cons_of_neg
          (by simp only [decide_eq_true_eq, not_and]; intro hcontra; exact absurd hcontra hea)]
        have hfold : ((rest.filter
              (fun f => decide ((rest.map fun x => x.1).getD l 0 ≤ f.1 ∧
                f.1 ≤ (rest.map fun x => x.1).getD h 0))).map fun f => f.2).sum
            = volumeBetween rest ((rest.map fun x => x.1).getD l 0)
                ((rest.map fun x => x.1).getD h 0) := rfl
        rw [hfold, ih hrs l h hlr hhr]
        unfold windowSum
        simp only [List.map_cons, List.drop_succ_cons]
        have harith : h + 1 + 1 - (l + 1) = h + 1 - l := by omega
        rw [harith]

instance : IsTotal (ℚ × ℚ) (fun a b => a.1 ≤ b.1) := ⟨fun a b => le_total a.1 b.1⟩

instance : IsTrans (ℚ × ℚ) (fun a b => a.1 ≤ b.1) := ⟨fun _ _ _ h1 h2 => le_trans h1 h2⟩

theorem sortByKey_perm (m : List (ℚ × ℚ)) : List.Perm (sortByKey m) m :=
  List.perm_insertionSort _ _

theorem sortByKey_sorted (m : List (ℚ × ℚ)) :
    (sortByKey m).Pairwise (fun e f => e.1 ≤ f.1) :=
  List.sorted_insertionSort _ _

theorem sortByKey_strict (m : List (ℚ × ℚ)) (h : (m.map fun e => e.1).Nodup) :
    (sortByKey m).Pairwise (fun e f => e.1 < f.1) := by
  have hnd : ((sortByKey m).map fun e => e.1).Nodup :=
    (((sortByKey_perm m).map _).nodup_iff).mpr h
  have hne : (sortByKey m).Pairwise (fun e f => e.1 ≠ f.1) :=
    List.pairwise_map.mp hnd
  exact ((sortByKey_sorted m).and hne).imp fun hx => lt_of_le_of_ne hx.1 hx.2

theorem volumeBetween_perm {l1 l2 : List (ℚ × ℚ)} (h : List.Perm l1 l2) (a b : ℚ) :
    volumeBetween l1 a b = volumeBetween l2 a b := by
  unfold volumeBetween
  exact ((h.filter _).map _).sum_eq

theorem windowSum_full (vols : List ℚ) (hne : vols ≠ []) :
    windowSum vols 0 (vols.length - 1) = vols.sum := by
  unfold windowSum
  rw [List.drop_zero]
  have h1 : vols.length - 1 + 1 - 0 = vols.length := by
    cases vols with
    | nil => simp at hne
    | cons x xs => simp
  rw [h1, List.take_length]

/-- C7, amended: for every non-empty profile (distinct bucket keys,
non-negative bucket volumes, `totalVolume` the sum of the buckets,
percentage at most 100) the Value Area satisfies `VAL ≤ POC ≤ VAH` and
the buckets priced within `[VAL, VAH]` carry at least
`valueAreaPct/100 × totalVolume`; on the section-8 seed profile the
result is `VAL = 49800`, `VAH = 50200` (not the claimed 49900/50100). -/
theorem claim_C7_amended :
    (∀ (levels : List (ℚ × ℚ)) (pct : ℕ) (total : ℚ),
      levels ≠ [] → (levels.map fun e => e.1).Nodup →
      (∀ e ∈ levels, 0 ≤ e.2) → total = (levels.map fun e => e.2).sum → pct ≤ 100 →
      ∃ poc val vah, pocCalc levels = some poc ∧
        valueArea levels pct total = some (val, vah) ∧
        val ≤ poc ∧ poc ≤ vah ∧
        ((pct : ℚ) / 100) * total ≤ volumeBetween levels val vah) ∧
    valueArea vaSeedLevels 70 130 = some (49800, 50200) := by
  constructor
  · intro levels pct total hne hnd hnn htot hpct
    obtain ⟨b, hpoc, hbmem, hbmax, _⟩ := pocCalc_spec levels hne
    have hperm : List.Perm (sortByKey levels) levels := sortByKey_perm levels
    have hstrict := sortByKey_strict levels hnd
    have hbsl : b ∈ sortByKey levels := (hperm.mem_iff).mpr hbmem
    have hpocp : b.1 ∈ (sortByKey levels).map fun e => e.1 :=
      List.mem_map_of_mem _ hbsl
    have hpi : ((sortByKey levels).map fun e => e.1).indexOf b.1
        < ((sortByKey levels).map fun e => e.1).length :=
      List.indexOf_lt_length.mpr hpocp
    have hpiv : ((sortByKey levels).map fun e => e.1).indexOf b.1
        < ((sortByKey levels).map fun e => e.2).length := by
      simpa using (by simpa using hpi : _ < (sortByKey levels).length)
    have hvols : ∀ v ∈ (sortByKey levels).map fun e => e.2, 0 ≤ v := by
      intro v hv
      obtain ⟨f, hf, rfl⟩ := List.mem_map.mp hv
      exact hnn f (hperm.subset hf)
    obtain ⟨c1, c2, c3, c4, c5, c6⟩ :=
      vaLoop_invariant ((sortByKey levels).map fun e => e.2)
        (total * ((pct : ℚ) / 100)) hvols
        (((sortByKey levels).map fun e => e.2).length + 1)
        (((sortByKey levels).map fun e => e.1).indexOf b.1)
        (((sortByKey levels).map fun e => e.1).indexOf b.1)
        (((sortByKey levels).map fun e => e.2).getD
          (((sortByKey levels).map fun e => e.1).indexOf b.1) 0)
        (le_refl _) hpiv (by omega) (windowSum_self hpiv).symm
    refine ⟨b.1,
      ((sortByKey levels).map fun e => e.1).getD
        ((vaLoop ((sortByKey levels).map fun e => e.2) (total * ((pct : ℚ) / 100))
          (((sortByKey levels).map fun e => e.2).length + 1)
          (((sortByKey levels).map fun e => e.1).indexOf b.1)
          (((sortByKey levels).map fun e => e.1).indexOf b.1)
          (((sortByKey levels).map fun e => e.2).getD
            (((sortByKey levels).map fun e => e.1).indexOf b.1) 0)).1) 0,
      ((sortByKey levels).map fun e => e.1).getD
        ((vaLoop ((sortByKey levels).map fun e => e.2) (total * ((pct : ℚ) / 100))
          (((sortByKey levels).map fun e => e.2).length + 1)
          (((sortByKey levels).map fun e => e.1).indexOf b.1)
          (((sortByKey levels).map fun e => e.1).indexOf b.1)
          (((sortByKey levels).map fun e => e.2).getD
            (((sortByKey levels).map fun e => e.1).indexOf b.1) 0)).2.1) 0,
      hpoc, ?_, ?_, ?_, ?_⟩
    · unfold valueArea
      rw [hpoc]
    · have hr1p : (vaLoop ((sortByKey levels).map fun e => e.2)
          (total * ((pct : ℚ) / 100))
          (((sortByKey levels).map fun e => e.2).length + 1)
          (((sortByKey levels).map fun e => e.1).indexOf b.1)
          (((sortByKey levels).map fun e => e.1).indexOf b.1)
          (((sortByKey levels).map fun e => e.2).getD
            (((sortByKey levels).map fun e => e.1).indexOf b.1) 0)).1
          < ((sortByKey levels).map fun e => e.1).length := by
        have hlen12 : ((sortByKey levels).map fun e => e.1).length
            = ((sortByKey levels).map fun e => e.2).length := by simp
        omega
      rw [List.getD_eq_getElem _ _ hr1p]
      have hmono := (List.Sorted.get_mono
          (List.pairwise_map.mpr (sortByKey_sorted levels)))
        (show (⟨_, hr1p⟩ : Fin (((sortByKey levels).map fun e => e.1).length))
          ≤ ⟨_, hpi⟩ from Fin.mk_le_mk.mpr c1)
      exact le_trans hmono (le_of_eq (List.getElem_indexOf hpi))
    · have hr2p : (vaLoop ((sortByKey levels).map fun e => e.2)
          (total * ((pct : ℚ) / 100))
          (((sortByKey levels).map fun e => e.2).length + 1)
          (((sortByKey levels).map fun e => e.1).indexOf b.1)
          (((sortByKey levels).map fun e => e.1).indexOf b.1)
          (((sortByKey levels).map fun e => e.2).getD
            (((sortByKey levels).map fun e => e.1).indexOf b.1) 0)).2.1
          < ((sortByKey levels).map fun e => e.1).length := by
        have hlen12 : ((sortByKey levels).map fun e => e.1).length
            = ((sortByKey levels).map fun e => e.2).length := by simp
        omega
      rw [List.getD_eq_getElem _ _ hr2p]
      have hmono := (List.Sorted.get_mono
          (List.pairwise_map.mpr (sortByKey_sorted levels)))
        (show (⟨_, hpi⟩ : Fin (((sortByKey levels).map fun e => e.1).length))
          ≤ ⟨_, hr2p⟩ from Fin.mk_le_mk.mpr c2)
      exact le_trans (le_of_eq (List.getElem_indexOf hpi).symm) hmono
    · have hr2s : (vaLoop ((sortByKey levels).map fun e => e.2)
          (total * ((pct : ℚ) / 100))
          (((sortByKey levels).map fun e => e.2).length + 1)
          (((sortByKey levels).map fun e => e.1).indexOf b.1)
          (((sortByKey levels).map fun e => e.1).indexOf b.1)
          (((sortByKey levels).map fun e => e.2).getD
            (((sortByKey levels).map fun e => e.1).indexOf b.1) 0)).2.1
          < (sortByKey levels).length := by
        simpa using c3
      have hconv := volumeBetween_sorted (sortByKey levels) hstrict _ _ c4 hr2s
      rw [volumeBetween_perm hperm.symm, hconv, mul_comm]
      rcases c6 with c6 | c6
      · rw [← c5]
        exact c6
      · rw [c6.1, c6.2]
        have hlen : ((sortByKey levels).map fun e => e.2) ≠ [] := by
          intro hcon
          rw [hcon] at hpiv
          simp at hpiv
        rw [windowSum_full _ hlen]
        have hsum : ((sortByKey levels).map fun e => e.2).sum = total := by
          rw [htot]
          exact (hperm.map _).sum_eq
        rw [hsum]
        have h0t : 0 ≤ total := by
          rw [htot]
          apply List.sum_nonneg
          intro x hx
          obtain ⟨f, hf, rfl⟩ := List.mem_map.mp hx
          exact hnn f hf
        have hx1 : (pct : ℚ) / 100 ≤ 1 := by
          rw [div_le_one (by norm_num)]
          exact_mod_cast hpct
        calc total * ((pct : ℚ) / 100) ≤ total * 1 :=
              mul_le_mul_of_nonneg_left hx1 h0t
          _ = total := mul_one total
  · exact vaSeed_eval

/-- C7 counterexample: on the section-8 seed profile the code's Value
Area is `(49800, 50200)`, not the `(49900, 50100)` the claim states. -/
theorem claim_C7_cex :
    ¬(valueArea vaSeedLevels 70 130 = some (49900, 50100)) := by
  rw [vaSeed_eval]
  intro h
  have h2 : ((49800 : ℚ), (50200 : ℚ)) = (49900, 50100) := Option.some.inj h
  have h3 : (49800 : ℚ) = 49900 := congrArg Prod.fst h2
  norm_num at h3

theorem vaSeed_ne : vaSeedLevels ≠ [] := by simp [vaSeedLevels]

theorem vaSeed_nodup : (vaSeedLevels.map fun e => e.1).Nodup := by decide

theorem vaSeed_nonneg : ∀ e ∈ vaSeedLevels, 0 ≤ e.2 := by
  intro e he
  fin_cases he <;> norm_num

theorem vaSeed_total : (130 : ℚ) = (vaSeedLevels.map fun e => e.2).sum := by
  norm_num [vaSeedLevels]

theorem claim_C7_witness :
    (vaSeedLevels ≠ [] ∧ (vaSeedLevels.map fun e => e.1).Nodup ∧
      (∀ e ∈ vaSeedLevels, 0 ≤ e.2) ∧
      (130 : ℚ) = (vaSeedLevels.map fun e => e.2).sum ∧ 70 ≤ 100) ∧
    (∃ poc val vah, pocCalc vaSeedLevels = some poc ∧
      valueArea vaSeedLevels 70 130 = some (val, vah) ∧
      val ≤ poc ∧ poc ≤ vah ∧
      (((70 : ℕ) : ℚ) / 100) * 130 ≤ volumeBetween vaSeedLevels val vah) :=
  ⟨⟨vaSeed_ne, vaSeed_nodup, vaSeed_nonneg, vaSeed_total, by decide⟩,
    claim_C7_amended.1 vaSeedLevels 70 130 vaSeed_ne vaSeed_nodup vaSeed_nonneg
      vaSeed_total (by decide)⟩

/-! ### Footprint bars (src/indicators/footprint.py)

`FootprintCalculator.update` keys each trade's contribution by
`round_to_tick(price, tick)` (floor) inside the bar whose `timestamp` is
`align_timestamp_to_timeframe(trade.timestamp, timeframe)`.  The
calculator keeps one *current* bar per timeframe and finalizes it when a
trade for a different bucket arrives (`_get_or_create_bar`); `buildBars`
returns the finalized bars followed by the current one. -/

structure FpTrade where
  price : ℚ
  volume : ℚ
  is_buyer_maker : Bool
  timestamp : ℕ
deriving DecidableEq, Repr

/-- `round_to_tick(price, tick, direction="down")`. -/
def floorToTick (tick p : ℚ) : ℚ := (⌊p / tick⌋ : ℚ) * tick

structure FootprintLevel where
  price : ℚ
  buy_volume : ℚ
  sell_volume : ℚ
  trade_count : ℕ
deriving DecidableEq, Repr

structure FootprintBar where
  timestamp : ℕ
  levels : List (ℚ × FootprintLevel)
deriving DecidableEq, Repr

/-- Apply one trade to a bar's level dict: create the level on first
sight, bump `trade_count`, and add the volume to the taker side
(`is_buyer_maker = true` is a sell). Mirrors `update` lines 222-231. -/
def bumpLevel (ls : List (ℚ × FootprintLevel)) (pl v : ℚ) (ibm : Bool) :
    List (ℚ × FootprintLevel) :=
  match ls with
  | [] => [(pl, ⟨pl, if ibm then 0 else v, if ibm then v else 0, 1⟩)]
  | e :: rest =>
    if e.1 = pl then
      (e.1, ⟨e.2.price, e.2.buy_volume + (if ibm then 0 else v),
        e.2.sell_volume + (if ibm then v else 0), e.2.trade_count + 1⟩) :: rest
    else e :: bumpLevel rest pl v ibm

/-- One `update` step of the current-bar machinery for a single
timeframe: same bucket mutates the current bar, a different bucket
finalizes it and opens a fresh one. -/
def fpStep (tfms : ℕ) (tick : ℚ) (st : List FootprintBar × Option FootprintBar)
    (t : FpTrade) : List FootprintBar × Option FootprintBar :=
  match st.2 with
  | none => (st.1, some ⟨(t.timestamp / tfms) * tfms,
      bumpLevel [] (floorToTick tick t.price) t.volume t.is_buyer_maker⟩)
  | some cur =>
    if cur.timestamp = (t.timestamp / tfms) * tfms then
      (st.1, some ⟨cur.timestamp,
        bumpLevel cur.levels (floorToTick tick t.price) t.volume t.is_buyer_maker⟩)
    else
      (st.1 ++ [cur], some ⟨(t.timestamp / tfms) * tfms,
        bumpLevel [] (floorToTick tick t.price) t.volume t.is_buyer_maker⟩)

/-- The stream of bars the calculator produces for one timeframe:
finalized bars in completion order followed by the current bar. -/
def buildBars (tfms : ℕ) (tick : ℚ) (trades : List FpTrade) : List FootprintBar :=
  ((trades.foldl (fpStep tfms tick) ([], none)).1)
    ++ ((trades.foldl (fpStep tfms tick) ([], none)).2).toList

/-- `FootprintBar.high`: highest price level key. -/
def barHigh (b : FootprintBar) : Option ℚ :=
  match b.levels.map (fun e => e.1) with
  | [] => none
  | x :: xs => some (xs.foldl max x)

/-- `FootprintBar.low`: lowest price level key. -/
def barLow (b : FootprintBar) : Option ℚ :=
  match b.levels.map (fun e => e.1) with
  | [] => none
  | x :: xs => some (xs.foldl min x)

/-- `FootprintBar.to_dict` exposes `"open": self.low`. -/
def toDictOpen (b : FootprintBar) : Option ℚ := barLow b

/-- `FootprintBar.to_dict` exposes `"close": levels_list[0]["price"]`
where `levels_list` is the levels sorted by price descending — i.e. the
highest price level (the source marks it `# Approximation`). -/
def toDictClose (b : FootprintBar) : Option ℚ :=
  ((b.levels.insertionSort (fun x y => y.1 ≤ x.1)).head?).map (fun e => e.1)

/-- Two same-bucket trades, first at 50001, then at 50000 (tick 1). -/
def ohlcTrades : List FpTrade :=
  [⟨50001, 1, false, 0⟩, ⟨50000, 1, false, 1000⟩]

/-- C4: `to_dict` does not track OHLC.  On a bar whose first trade is at
50001 and last trade at 50000, the exposed `open` is 50000 (the lowest
level, not the first trade's price) and the exposed `close` is 50001
(the highest level, not the last trade's price); `high`/`low` are the
extreme tick-rounded level keys. -/
theorem claim_C4_code_bug_eval :
    buildBars 60000 1 ohlcTrades
        = [⟨0, [(50001, ⟨50001, 1, 0, 1⟩), (50000, ⟨50000, 1, 0, 1⟩)]⟩] ∧
    toDictOpen ⟨0, [(50001, ⟨50001, 1, 0, 1⟩), (50000, ⟨50000, 1, 0, 1⟩)]⟩ = some 50000 ∧
    toDictClose ⟨0, [(50001, ⟨50001, 1, 0, 1⟩), (50000, ⟨50000, 1, 0, 1⟩)]⟩ = some 50001 ∧
    (ohlcTrades.head?).map (fun t => t.price) = some 50001 ∧
    (ohlcTrades.getLast?).map (fun t => t.price) = some 50000 ∧
    ¬(some (50000 : ℚ) = some (50001 : ℚ)) := by
  refine ⟨?_, ?_, ?_, ?_, ?_, ?_⟩
  · norm_num [buildBars, ohlcTrades, fpStep, bumpLevel, floorToTick, List.foldl]
  · norm_num [toDictOpen, barLow]
  · norm_num [toDictClose, List.insertionSort, List.orderedInsert]
  · norm_num [ohlcTrades]
  · norm_num [ohlcTrades]
  · norm_num

/-! ### Footprint aggregation (aggregate_footprint_bars) and its
refinement against direct aggregation of the trades. -/

/-- Grouping form of the per-timeframe update: route the trade's
contribution to the bar keyed by its bucket (first occurrence order).
For time-ordered trades this produces exactly the bar stream of
`buildBars` (`buildBars_eq_map` below); it is also the shape of the
row-grouping in `get_footprint_range`. -/
def bumpBarAssoc (acc : List FootprintBar) (ts : ℕ) (pl v : ℚ) (ibm : Bool) :
    List FootprintBar :=
  match acc with
  | [] => [⟨ts, bumpLevel [] pl v ibm⟩]
  | b :: rest =>
    if b.timestamp = ts then ⟨b.timestamp, bumpLevel b.levels pl v ibm⟩ :: rest
    else b :: bumpBarAssoc rest ts pl v ibm

def buildBarsMap (tfms : ℕ) (tick : ℚ) (trades : List FpTrade) : List FootprintBar :=
  trades.foldl
    (fun acc t => bumpBarAssoc acc ((t.timestamp / tfms) * tfms)
      (floorToTick tick t.price) t.volume t.is_buyer_maker) []

/-- Merge one source level into an aggregated bar's levels: create the
level if absent, then add the buy/sell volumes and trade count
(`aggregate_footprint_bars` lines 329-335). -/
def addLevelEntry (ls : List (ℚ × FootprintLevel)) (p : ℚ) (lv : FootprintLevel) :
    List (ℚ × FootprintLevel) :=
  match ls with
  | [] => [(p, ⟨p, lv.buy_volume, lv.sell_volume, lv.trade_count⟩)]
  | e :: rest =>
    if e.1 = p then
      (e.1, ⟨e.2.price, e.2.buy_volume + lv.buy_volume,
        e.2.sell_volume + lv.sell_volume, e.2.trade_count + lv.trade_count⟩) :: rest
    else e :: addLevelEntry rest p lv

def hasBar (acc : List FootprintBar) (ts : ℕ) : Bool :=
  acc.any (fun b => decide (b.timestamp = ts))

/-- `if agg_start not in aggregated: aggregated[agg_start] = FootprintBar(...)`. -/
def ensureBar (acc : List FootprintBar) (ts : ℕ) : List FootprintBar :=
  if hasBar acc ts then acc else acc ++ [⟨ts, []⟩]

def addLevelToBar (acc : List FootprintBar) (ts : ℕ) (p : ℚ) (lv : FootprintLevel) :
    List FootprintBar :=
  match acc with
  | [] => []
  | b :: rest =>
    if b.timestamp = ts then ⟨b.timestamp, addLevelEntry b.levels p lv⟩ :: rest
    else b :: addLevelToBar rest ts p lv

/-- One input bar of `aggregate_footprint_bars`: ensure its aggregation
bucket exists, then merge every level. -/
def aggStepBar (tfms : ℕ) (acc : List FootprintBar) (bar : FootprintBar) :
    List FootprintBar :=
  bar.levels.foldl
    (fun a e => addLevelToBar a ((bar.timestamp / tfms) * tfms) e.1 e.2)
    (ensureBar acc ((bar.timestamp / tfms) * tfms))

/-- `aggregate_footprint_bars`: group the bars by
`(timestamp // tf_ms) * tf_ms`, merge levels additively, and return the
aggregated bars sorted by timestamp. -/
def aggregateFootprintBars (bars : List FootprintBar) (tfms : ℕ) : List FootprintBar :=
  if bars = [] then []
  else (bars.foldl (aggStepBar tfms) []).insertionSort
    (fun a b => a.timestamp ≤ b.timestamp)

/-- Observable data of a level: (buyVolume, sellVolume, tradeCount). -/
def lvData (lv : FootprintLevel) : ℚ × ℚ × ℕ :=
  (lv.buy_volume, lv.sell_volume, lv.trade_count)

/-- Per-price observable of a level dict (sums duplicates, which never
occur in built bars). -/
def levelGet (ls : List (ℚ × FootprintLevel)) (p : ℚ) : ℚ × ℚ × ℕ :=
  ((ls.filter fun e => decide (e.1 = p)).map fun e => lvData e.2).sum

/-- Per-(bucket,price) observable over a bar list, bars selected by a
timestamp predicate. -/
def barsGetP (P : ℕ → Bool) (bars : List FootprintBar) (p : ℚ) : ℚ × ℚ × ℕ :=
  ((bars.filter fun b => P b.timestamp).map fun b => levelGet b.levels p).sum

def barsGet (bars : List FootprintBar) (o : ℕ) (p : ℚ) : ℚ × ℚ × ℕ :=
  barsGetP (fun ts => decide (ts = o)) bars p

def barsGetAgg (tfms : ℕ) (bars : List FootprintBar) (o : ℕ) (p : ℚ) : ℚ × ℚ × ℕ :=
  barsGetP (fun ts => decide ((ts / tfms) * tfms = o)) bars p

def tradeContrib (t : FpTrade) : ℚ × ℚ × ℕ :=
  (if t.is_buyer_maker then 0 else t.volume, if t.is_buyer_maker then t.volume else 0, 1)

/-- Canonical per-(bucket,price) trade aggregate against which both bar
constructions are measured. -/
def tradesGet (Q : FpTrade → Bool) (tick : ℚ) (p : ℚ) (trades : List FpTrade) :
    ℚ × ℚ × ℕ :=
  ((trades.filter fun t => Q t && decide (floorToTick tick t.price = p)).map
    tradeContrib).sum

def barTotalBuy (b : FootprintBar) : ℚ := (b.levels.map fun e => e.2.buy_volume).sum

def barTotalSell (b : FootprintBar) : ℚ := (b.levels.map fun e => e.2.sell_volume).sum

def barDelta (b : FootprintBar) : ℚ := barTotalBuy b - barTotalSell b

def barTotalVolume (b : FootprintBar) : ℚ :=
  (b.levels.map fun e => e.2.buy_volume + e.2.sell_volume).sum

/-- The five consecutive aligned 1m bars of spec section 8, scenario 5. -/
def fiveOneMinuteBars : List FootprintBar :=
  [⟨0, [(50000, ⟨50000, 10, 5, 1⟩)]⟩,
   ⟨60000, [(50000, ⟨50000, 10, 5, 1⟩)]⟩,
   ⟨120000, [(50000, ⟨50000, 10, 5, 1⟩)]⟩,
   ⟨180000, [(50000, ⟨50000, 10, 5, 1⟩)]⟩,
   ⟨240000, [(50000, ⟨50000, 10, 5, 1⟩)]⟩]

theorem fiveBars_eval :
    aggregateFootprintBars fiveOneMinuteBars 300000
      = [⟨0, [(50000, ⟨50000, 50, 25, 5⟩)]⟩] := by
  norm_num [aggregateFootprintBars, fiveOneMinuteBars, aggStepBar, ensureBar, hasBar,
    addLevelToBar, addLevelEntry, List.foldl, List.insertionSort, List.orderedInsert]
  intro h
  simp at h

theorem levelGet_bumpLevel (ls : List (ℚ × FootprintLevel)) (pl v : ℚ) (ibm : Bool)
    (p : ℚ) :
    levelGet (bumpLevel ls pl v ibm) p
      = levelGet ls p + (if pl = p then
          ((if ibm then 0 else v), (if ibm then v else 0), 1) else 0) := by
  induction ls with
  | nil =>
    by_cases hp : pl = p <;>
      simp [bumpLevel, levelGet, List.filter_cons, hp, lvData]
  | cons e rest ih =>
    by_cases he : e.1 = pl
    · by_cases hp : pl = p
      · have hep : e.1 = p := by rw [he, hp]
        simp only [bumpLevel, if_pos he, levelGet, List.filter_cons, hep, decide_True,
          if_pos, List.map_cons, List.sum_cons, hp]
        simp [lvData, Prod.ext_iff]
        constructor
        · ring
        · constructor
          · ring
          · omega
      · have hep : ¬(e.1 = p) := by rw [he]; exact hp
        simp only [bumpLevel, if_pos he, levelGet, List.filter_cons, hep, decide_False,
          if_neg, hp]
        simp
    · simp only [bumpLevel, if_neg he]
      by_cases hep : e.1 = p
      · simp only [levelGet, List.filter_cons, hep, decide_True, if_true, List.map_cons,
          List.sum_cons]
        have ih2 := ih
        simp only [levelGet] at ih2
        rw [ih2]
        ring_nf
      · simp only [levelGet, List.filter_cons, hep, decide_False, if_neg]
        have ih2 := ih
        simp only [levelGet] at ih2
        exact ih2

theorem levelGet_addLevelEntry (ls : List (ℚ × FootprintLevel)) (p : ℚ)
    (lv : FootprintLevel) (q : ℚ) :
    levelGet (addLevelEntry ls p lv) q
      = levelGet ls q + (if p = q then lvData lv else 0) := by
  induction ls with
  | nil =>
    by_cases hq : p = q <;>
      simp [addLevelEntry, levelGet, List.filter_cons, hq, lvData]
  | cons e rest ih =>
    by_cases he : e.1 = p
    · by_cases hq : p = q
      · have heq : e.1 = q := by rw [he, hq]
        simp only [addLevelEntry, if_pos he, levelGet, List.filter_cons, heq,
          decide_True, if_pos, List.map_cons, List.sum_cons, hq]
        simp [lvData, Prod.ext_iff]
        constructor
        · ring
        · constructor
          · ring
          · omega
      · have heq : ¬(e.1 = q) := by rw [he]; exact hq
        simp only [addLevelEntry, if_pos he, levelGet, List.filter_cons, heq,
          decide_False, if_neg, hq]
        simp
    · simp only [addLevelEntry, if_neg he]
      by_cases heq : e.1 = q
      · simp only [levelGet, List.filter_cons, heq, decide_True, if_true, List.map_cons,
          List.sum_cons]
        have ih2 := ih
        simp only [levelGet] at ih2
        rw [ih2]
        ring_nf
      · simp only [levelGet, List.filter_cons, heq, decide_False, if_neg]
        have ih2 := ih
        simp only [levelGet] at ih2
        exact ih2

theorem barsGetP_bumpBarAssoc (P : ℕ → Bool) (acc : List FootprintBar) (ts : ℕ)
    (pl v : ℚ) (ibm : Bool) (p : ℚ) :
    barsGetP P (bumpBarAssoc acc ts pl v ibm) p
      = barsGetP P acc p + (if P ts ∧ pl = p then
          ((if ibm then 0 else v), (if ibm then v else 0), 1) else 0) := by
  induction acc with
  | nil =>
    by_cases hP : P ts
    · simp only [bumpBarAssoc, barsGetP, List.filter_cons, hP, if_true,
        List.filter_nil, List.map_cons, List.map_nil, List.sum_cons, List.sum_nil,
        true_and]
      rw [levelGet_bumpLevel]
      by_cases hp : pl = p <;> simp [hp, levelGet]
    · simp only [bumpBarAssoc, barsGetP, List.filter_cons, hP, if_false,
        List.filter_nil, List.map_nil, List.sum_nil, false_and, if_neg, Bool.false_eq_true]
      simp [hP]
  | cons b rest ih =>
    by_cases hb : b.timestamp = ts
    · simp only [bumpBarAssoc, if_pos hb]
      by_cases hP : P b.timestamp
      · have hPts : P ts := hb ▸ hP
        simp only [barsGetP, List.filter_cons, hP, if_true, List.map_cons,
          List.sum_cons]
        rw [levelGet_bumpLevel]
        by_cases hp : pl = p
        · simp [hPts, hp, add_assoc, add_comm, add_left_comm]
        · simp [hp]
      · have hPts : ¬(P ts) := hb ▸ hP
        simp only [barsGetP, List.filter_cons, hP, Bool.false_eq_true, if_false]
        simp [hPts]
    · simp only [bumpBarAssoc, if_neg hb]
      by_cases hP : P b.timestamp
      · simp only [barsGetP, List.filter_cons, hP, if_true, List.map_cons,
          List.sum_cons]
        have ih2 := ih
        simp only [barsGetP] at ih2
        rw [ih2]
        ring_nf
      · simp only [barsGetP, List.filter_cons, hP, Bool.false_eq_true, if_false]
        have ih2 := ih
        simp only [barsGetP] at ih2
        exact ih2

theorem barsGetP_buildBarsMap (P : ℕ → Bool) (tfms : ℕ) (tick : ℚ)
    (trades : List FpTrade) (p : ℚ) :
    barsGetP P (buildBarsMap tfms tick trades) p
      = tradesGet (fun t => P ((t.timestamp / tfms) * tfms)) tick p trades := by
  have main : ∀ (trades : List FpTrade) (acc : List FootprintBar),
      barsGetP P (trades.foldl
        (fun acc t => bumpBarAssoc acc ((t.timestamp / tfms) * tfms)
          (floorToTick tick t.price) t.volume t.is_buyer_maker) acc) p
        = barsGetP P acc p
          + tradesGet (fun t => P ((t.timestamp / tfms) * tfms)) tick p trades := by
    intro trades
    induction trades with
    | nil => intro acc; simp [tradesGet]
    | cons t rest ih =>
      intro acc
      simp only [List.foldl_cons]
      rw [ih]
      rw [barsGetP_bumpBarAssoc]
      have htg : tradesGet (fun t => P ((t.timestamp / tfms) * tfms)) tick p (t :: rest)
          = (if P ((t.timestamp / tfms) * tfms) ∧ floorToTick tick t.price = p then
              ((if t.is_buyer_maker then 0 else t.volume),
                (if t.is_buyer_maker then t.volume else 0), 1) else 0)
            + tradesGet (fun t => P ((t.timestamp / tfms) * tfms)) tick p rest := by
        simp only [tradesGet, List.filter_cons]
        by_cases h1 : P ((t.timestamp / tfms) * tfms)
        · by_cases h2 : floorToTick tick t.price = p
          · simp [h1, h2, tradeContrib]
          · simp [h1, h2]
        · simp [h1]
      rw [htg]
      rw [add_assoc]
  have h0 : barsGetP P ([] : List FootprintBar) p = 0 := by simp [barsGetP]
  rw [buildBarsMap, main trades [], h0, zero_add]

theorem barsGetP_perm {bars1 bars2 : List FootprintBar}
    (h : List.Perm bars1 bars2) (P : ℕ → Bool) (p : ℚ) :
    barsGetP P bars1 p = barsGetP P bars2 p := by
  unfold barsGetP
  exact ((h.filter _).map _).sum_eq

theorem levelGet_cons (e : ℚ × FootprintLevel) (rest : List (ℚ × FootprintLevel))
    (q : ℚ) :
    levelGet (e :: rest) q = (if e.1 = q then lvData e.2 else 0) + levelGet rest q := by
  by_cases h : e.1 = q <;> simp [levelGet, List.filter_cons, h]

theorem hasBar_addLevelToBar (acc : List FootprintBar) (ts2 : ℕ) (p : ℚ)
    (lv : FootprintLevel) (ts : ℕ) :
    hasBar (addLevelToBar acc ts2 p lv) ts = hasBar acc ts := by
  induction acc with
  | nil => rfl
  | cons b rest ih =>
    by_cases hb : b.timestamp = ts2
    · simp [addLevelToBar, hb, hasBar, List.any_cons]
    · simp only [addLevelToBar, if_neg hb, hasBar, List.any_cons]
      have ih2 := ih
      simp only [hasBar] at ih2
      rw [ih2]

theorem hasBar_ensureBar (acc : List FootprintBar) (ts : ℕ) :
    hasBar (ensureBar acc ts) ts = true := by
  unfold ensureBar
  by_cases h : hasBar acc ts
  · rw [if_pos h]; exact h
  · rw [if_neg h]
    simp [hasBar, List.any_append]

theorem barsGetP_ensureBar (P : ℕ → Bool) (acc : List FootprintBar) (ts : ℕ) (p : ℚ) :
    barsGetP P (ensureBar acc ts) p = barsGetP P acc p := by
  unfold ensureBar
  by_cases h : hasBar acc ts
  · simp [h]
  · simp only [h, Bool.false_eq_true, if_false, barsGetP, List.filter_append]
    by_cases hP : P ts <;> simp [hP, levelGet]

theorem barsGetP_addLevelToBar (P : ℕ → Bool) (acc : List FootprintBar) (ts : ℕ)
    (p : ℚ) (lv : FootprintLevel) (q : ℚ) (hhas : hasBar acc ts = true) :
    barsGetP P (addLevelToBar acc ts p lv) q
      = barsGetP P acc q + (if P ts ∧ p = q then lvData lv else 0) := by
  induction acc with
  | nil => simp [hasBar] at hhas
  | cons b rest ih =>
    by_cases hb : b.timestamp = ts
    · simp only [addLevelToBar, if_pos hb]
      by_cases hP : P b.timestamp
      · have hPts : P ts := hb ▸ hP
        simp only [barsGetP, List.filter_cons, hP, if_true, List.map_cons,
          List.sum_cons]
        rw [levelGet_addLevelEntry]
        by_cases hq : p = q
        · simp [hPts, hq, add_assoc, add_comm, add_left_comm]
        · simp [hq]
      · have hPts : ¬(P ts) := hb ▸ hP
        simp only [barsGetP, List.filter_cons, hP, Bool.false_eq_true, if_false]
        simp [hPts]
    · have hhr : hasBar rest ts = true := by
        simp only [hasBar, List.any_cons] at hhas
        rcases Bool.or_eq_true_iff.mp hhas with h | h
        · exact absurd (of_decide_eq_true h) hb
        · exact h
      simp only [addLevelToBar, if_neg hb]
      by_cases hP : P b.timestamp
      · simp only [barsGetP, List.filter_cons, hP, if_true, List.map_cons,
          List.sum_cons]
        have ih2 := ih hhr
        simp only [barsGetP] at ih2
        rw [ih2]
        rw [add_assoc]
      · simp only [barsGetP, List.filter_cons, hP, Bool.false_eq_true, if_false]
        have ih2 := ih hhr
        simp only [barsGetP] at ih2
        exact ih2

theorem barsGetP_foldLevels (P : ℕ → Bool) (ls : List (ℚ × FootprintLevel)) :
    ∀ (acc : List FootprintBar) (ts : ℕ) (q : ℚ), hasBar acc ts = true →
    barsGetP P (ls.foldl (fun a e => addLevelToBar a ts e.1 e.2) acc) q
      = barsGetP P acc q + (if P ts then levelGet ls q else 0) := by
  induction ls with
  | nil =>
    intro acc ts q _
    by_cases hP : P ts <;> simp [hP, levelGet]
  | cons e rest ih =>
    intro acc ts q hhas
    simp only [List.foldl_cons]
    rw [ih (addLevelToBar acc ts e.1 e.2) ts q
      (by rw [hasBar_addLevelToBar]; exact hhas)]
    rw [barsGetP_addLevelToBar P acc ts e.1 e.2 q hhas]
    rw [levelGet_cons]
    by_cases hP : P ts
    · by_cases he : e.1 = q <;>
        simp [hP, he, add_assoc, add_comm, add_left_comm]
    · simp [hP]

theorem barsGetP_aggStep (P : ℕ → Bool) (tfms : ℕ) (acc : List FootprintBar)
    (bar : FootprintBar) (q : ℚ) :
    barsGetP P (aggStepBar tfms acc bar) q
      = barsGetP P acc q
        + (if P ((bar.timestamp / tfms) * tfms) then levelGet bar.levels q else 0) := by
  unfold aggStepBar
  rw [barsGetP_foldLevels P bar.levels _ _ _ (hasBar_ensureBar acc _),
    barsGetP_ensureBar]

theorem barsGetP_aggregateFold (P : ℕ → Bool) (tfms : ℕ) (q : ℚ) :
    ∀ (bars acc : List FootprintBar),
    barsGetP P (bars.foldl (aggStepBar tfms) acc) q
      = barsGetP P acc q + barsGetP (fun ts => P ((ts / tfms) * tfms)) bars q := by
  intro bars
  induction bars with
  | nil => intro acc; simp [barsGetP]
  | cons bar rest ih =>
    intro acc
    simp only [List.foldl_cons]
    rw [ih (aggStepBar tfms acc bar), barsGetP_aggStep]
    have hdec : barsGetP (fun ts => P ((ts / tfms) * tfms)) (bar :: rest) q
        = (if P ((bar.timestamp / tfms) * tfms) then levelGet bar.levels q else 0)
          + barsGetP (fun ts => P ((ts / tfms) * tfms)) rest q := by
      by_cases hP : P ((bar.timestamp / tfms) * tfms) <;>
        simp [barsGetP, List.filter_cons, hP]
    rw [hdec, add_assoc]

theorem barsGetP_aggregate (P : ℕ → Bool) (bars : List FootprintBar) (tfms : ℕ)
    (q : ℚ) :
    barsGetP P (aggregateFootprintBars bars tfms) q
      = barsGetP (fun ts => P ((ts / tfms) * tfms)) bars q := by
  unfold aggregateFootprintBars
  by_cases hb : bars = []
  · simp [hb, barsGetP]
  · rw [if_neg hb]
    rw [barsGetP_perm (List.perm_insertionSort _ _) P q,
      barsGetP_aggregateFold P tfms q bars []]
    simp [barsGetP]

theorem bucket_mono (tfms : ℕ) {a b : ℕ} (h : a ≤ b) :
    (a / tfms) * tfms ≤ (b / tfms) * tfms :=
  Nat.mul_le_mul_right _ (Nat.div_le_div_right h)

theorem bumpBarAssoc_last (done : List FootprintBar) (cur : FootprintBar)
    (pl v : ℚ) (ibm : Bool) (hne : ∀ b ∈ done, b.timestamp ≠ cur.timestamp) :
    bumpBarAssoc (done ++ [cur]) cur.timestamp pl v ibm
      = done ++ [⟨cur.timestamp, bumpLevel cur.levels pl v ibm⟩] := by
  induction done with
  | nil => simp [bumpBarAssoc]
  | cons d ds ih =>
    have hd : d.timestamp ≠ cur.timestamp := hne d (by simp)
    simp only [List.cons_append, bumpBarAssoc, if_neg hd]
    exact congrArg (fun l => d :: l) (ih (fun b hb => hne b (by simp [hb])))

theorem bumpBarAssoc_new (acc : List FootprintBar) (ts : ℕ) (pl v : ℚ) (ibm : Bool)
    (hne : ∀ b ∈ acc, b.timestamp ≠ ts) :
    bumpBarAssoc acc ts pl v ibm = acc ++ [⟨ts, bumpLevel [] pl v ibm⟩] := by
  induction acc with
  | nil => simp [bumpBarAssoc]
  | cons d ds ih =>
    have hd : d.timestamp ≠ ts := hne d (by simp)
    simp only [List.cons_append, bumpBarAssoc, if_neg hd]
    exact congrArg (fun l => d :: l) (ih (fun b hb => hne b (by simp [hb])))

theorem seq_eq_map_aux (tfms : ℕ) (tick : ℚ) :
    ∀ (trades : List FpTrade) (done : List FootprintBar) (cur : FootprintBar),
    (∀ b ∈ done, b.timestamp < cur.timestamp) →
    (∀ t ∈ trades, cur.timestamp ≤ (t.timestamp / tfms) * tfms) →
    List.Pairwise (fun a b : FpTrade => a.timestamp ≤ b.timestamp) trades →
    (trades.foldl (fpStep tfms tick) (done, some cur)).1
        ++ ((trades.foldl (fpStep tfms tick) (done, some cur)).2).toList
      = trades.foldl
          (fun acc t => bumpBarAssoc acc ((t.timestamp / tfms) * tfms)
            (floorToTick tick t.price) t.volume t.is_buyer_maker)
          (done ++ [cur]) := by
  intro trades
  induction trades with
  | nil => intro done cur _ _ _; simp
  | cons t rest ih =>
    intro done cur hdone hlow hpair
    have hbt : cur.timestamp ≤ (t.timestamp / tfms) * tfms := hlow t (by simp)
    have hrs : ∀ x ∈ rest, t.timestamp ≤ x.timestamp :=
      (List.pairwise_cons.mp hpair).1
    have hpr : List.Pairwise (fun a b : FpTrade => a.timestamp ≤ b.timestamp) rest :=
      (List.pairwise_cons.mp hpair).2
    simp only [List.foldl_cons]
    by_cases hcase : cur.timestamp = (t.timestamp / tfms) * tfms
    · have hstep : fpStep tfms tick (done, some cur) t
          = (done, some ⟨cur.timestamp,
              bumpLevel cur.levels (floorToTick tick t.price) t.volume t.is_buyer_maker⟩) := by
        simp [fpStep, hcase]
      have hmap : bumpBarAssoc (done ++ [cur]) ((t.timestamp / tfms) * tfms)
            (floorToTick tick t.price) t.volume t.is_buyer_maker
          = done ++ [⟨cur.timestamp,
              bumpLevel cur.levels (floorToTick tick t.price) t.volume t.is_buyer_maker⟩] := by
        rw [← hcase]
        exact bumpBarAssoc_last done cur _ _ _
          (fun b hb => ne_of_lt (hdone b hb))
      rw [hstep, hmap]
      exact ih done ⟨cur.timestamp,
          bumpLevel cur.levels (floorToTick tick t.price) t.volume t.is_buyer_maker⟩
        hdone
        (fun x hx => le_trans (le_of_eq hcase) (bucket_mono tfms (hrs x hx)))
        hpr
    · have hlt : cur.timestamp < (t.timestamp / tfms) * tfms :=
        lt_of_le_of_ne hbt hcase
      have hstep : fpStep tfms tick (done, some cur) t
          = (done ++ [cur], some ⟨(t.timestamp / tfms) * tfms,
              bumpLevel [] (floorToTick tick t.price) t.volume t.is_buyer_maker⟩) := by
        simp [fpStep, hcase]
      have hmap : bumpBarAssoc (done ++ [cur]) ((t.timestamp / tfms) * tfms)
            (floorToTick tick t.price) t.volume t.is_buyer_maker
          = (done ++ [cur]) ++ [⟨(t.timestamp / tfms) * tfms,
              bumpLevel [] (floorToTick tick t.price) t.volume t.is_buyer_maker⟩] := by
        apply bumpBarAssoc_new
        intro b hb
        rcases List.mem_append.mp hb with hb | hb
        · exact ne_of_lt (lt_trans (hdone b hb) hlt)
        · simp at hb
          rw [hb]
          exact ne_of_lt hlt
      rw [hstep, hmap]
      apply ih (done ++ [cur]) ⟨(t.timestamp / tfms) * tfms,
          bumpLevel [] (floorToTick tick t.price) t.volume t.is_buyer_maker⟩
      · intro b hb
        rcases List.mem_append.mp hb with hb | hb
        · exact lt_trans (hdone b hb) hlt
        · simp at hb
          rw [hb]
          exact hlt
      · intro x hx
        exact bucket_mono tfms (hrs x hx)
      · exact hpr

theorem buildBars_eq_map (tfms : ℕ) (tick : ℚ) (trades : List FpTrade)
    (hmono : List.Pairwise (fun a b : FpTrade => a.timestamp ≤ b.timestamp) trades) :
    buildBars tfms tick trades = buildBarsMap tfms tick trades := by
  cases trades with
  | nil => rfl
  | cons t rest =>
    unfold buildBars buildBarsMap
    simp only [List.foldl_cons]
    have hstep0 : fpStep tfms tick ([], none) t
        = ([], some ⟨(t.timestamp / tfms) * tfms,
            bumpLevel [] (floorToTick tick t.price) t.volume t.is_buyer_maker⟩) := by
      simp [fpStep]
    have hmap0 : bumpBarAssoc [] ((t.timestamp / tfms) * tfms)
          (floorToTick tick t.price) t.volume t.is_buyer_maker
        = [] ++ [⟨(t.timestamp / tfms) * tfms,
            bumpLevel [] (floorToTick tick t.price) t.volume t.is_buyer_maker⟩] := by
      simp [bumpBarAssoc]
    rw [hstep0, hmap0]
    exact seq_eq_map_aux tfms tick rest []
      ⟨(t.timestamp / tfms) * tfms,
        bumpLevel [] (floorToTick tick t.price) t.volume t.is_buyer_maker⟩
      (by intro b hb; simp at hb)
      (by
        intro x hx
        exact bucket_mono tfms ((List.pairwise_cons.mp hmono).1 x hx))
      (List.pairwise_cons.mp hmono).2

/-- C5: aggregating the 1m footprint bar stream to 5m yields, per
(bucket, price level), the same buy volume, sell volume and trade count
as running the per-trade update directly at 5m, for any time-ordered
trade stream; and the five seed 1m bars aggregate to one 5m bar with
level 50000 carrying buy 50 / sell 25, delta 25, total volume 75. -/
theorem claim_C5 :
    (∀ (tick : ℚ) (trades : List FpTrade),
      List.Pairwise (fun a b : FpTrade => a.timestamp ≤ b.timestamp) trades →
      ∀ (o : ℕ) (p : ℚ),
        barsGet (aggregateFootprintBars (buildBars 60000 tick trades) 300000) o p
          = barsGet (buildBars 300000 tick trades) o p) ∧
    (aggregateFootprintBars fiveOneMinuteBars 300000
        = [⟨0, [(50000, ⟨50000, 50, 25, 5⟩)]⟩] ∧
      barDelta ⟨0, [(50000, ⟨50000, 50, 25, 5⟩)]⟩ = 25 ∧
      barTotalVolume ⟨0, [(50000, ⟨50000, 50, 25, 5⟩)]⟩ = 75) := by
  constructor
  · intro tick trades hmono o p
    rw [buildBars_eq_map 60000 tick trades hmono,
      buildBars_eq_map 300000 tick trades hmono]
    unfold barsGet
    rw [barsGetP_aggregate, barsGetP_buildBarsMap, barsGetP_buildBarsMap]
    unfold tradesGet
    refine congrArg (fun l : List FpTrade => (l.map tradeContrib).sum) ?_
    apply List.filter_congr
    intro t ht
    have h1 : t.timestamp / 60000 * 60000 / 300000 = t.timestamp / 300000 := by
      rw [show (300000 : ℕ) = 60000 * 5 from rfl, mul_comm (t.timestamp / 60000) 60000,
        Nat.mul_div_mul_left _ _ (by norm_num), Nat.div_div_eq_div_mul]
    simp only [h1]
  · refine ⟨fiveBars_eval, ?_, ?_⟩
    · norm_num [barDelta, barTotalBuy, barTotalSell]
    · norm_num [barTotalVolume]

theorem claim_C5_witness :
    List.Pairwise (fun a b : FpTrade => a.timestamp ≤ b.timestamp)
      [(⟨50000, 10, false, 0⟩ : FpTrade), ⟨50000, 5, true, 60000⟩] ∧
    (∀ (o : ℕ) (p : ℚ),
      barsGet (aggregateFootprintBars
          (buildBars 60000 1 [(⟨50000, 10, false, 0⟩ : FpTrade), ⟨50000, 5, true, 60000⟩])
          300000) o p
        = barsGet (buildBars 300000 1
            [(⟨50000, 10, false, 0⟩ : FpTrade), ⟨50000, 5, true, 60000⟩]) o p) :=
  ⟨by simp, claim_C5.1 1 [⟨50000, 10, false, 0⟩, ⟨50000, 5, true, 60000⟩] (by simp)⟩

/- ### Stacked imbalances — `src/indicators/imbalance.py` -/

inductive ImbDir where
  | buy : ImbDir
  | sell : ImbDir
  | unknown : ImbDir
deriving DecidableEq, Repr

structure Imbalance where
  price : ℚ
  buy_volume : ℚ
  sell_volume : ℚ
  ratioVal : Option ℚ
  direction : ImbDir
deriving DecidableEq, Repr

/-- `ImbalanceDetector.detect_imbalance` (imbalance.py lines 59-116), with
`ratioVal = none` standing for the Python `float("inf")` of the
one-sided branches. The branch order is the source's. -/
def detectImbalance (r buyVolume sellVolume : ℚ) : Option Imbalance :=
  if buyVolume = 0 ∧ sellVolume = 0 then none
  else if sellVolume > 0 ∧ buyVolume / sellVolume ≥ r then
    some ⟨0, buyVolume, sellVolume, some (buyVolume / sellVolume), ImbDir.buy⟩
  else if buyVolume > 0 ∧ sellVolume / buyVolume ≥ r then
    some ⟨0, buyVolume, sellVolume, some (sellVolume / buyVolume), ImbDir.sell⟩
  else if buyVolume > 0 ∧ sellVolume = 0 then
    some ⟨0, buyVolume, sellVolume, none, ImbDir.buy⟩
  else if sellVolume > 0 ∧ buyVolume = 0 then
    some ⟨0, buyVolume, sellVolume, none, ImbDir.sell⟩
  else none

/-- Direction of the detected imbalance, if any. -/
def imbDirOf (r b s : ℚ) : Option ImbDir :=
  (detectImbalance r b s).map Imbalance.direction

structure StackedImbalance where
  start_price : ℚ
  end_price : ℚ
  direction : ImbDir
  levels : List Imbalance
deriving DecidableEq, Repr

def dfltImb : Imbalance := ⟨0, 0, 0, none, ImbDir.unknown⟩

/-- `StackedImbalance(start_price=current_stack[0].price,
end_price=current_stack[-1].price, direction=..., levels=...)`. -/
def mkStack (cur : List Imbalance) (dir : Option ImbDir) : StackedImbalance :=
  ⟨(cur.headD dfltImb).price, (cur.getLastD dfltImb).price,
    dir.getD ImbDir.unknown, cur⟩

/-- Loop body of `find_stacked_imbalances` (imbalance.py lines 149-183),
state = (emitted stacks, current_stack, current_direction). -/
def imbStep (r : ℚ) (k : ℕ)
    (st : List StackedImbalance × List Imbalance × Option ImbDir)
    (lv : ℚ × FootprintLevel) :
    List StackedImbalance × List Imbalance × Option ImbDir :=
  match detectImbalance r lv.2.buy_volume lv.2.sell_volume with
  | some i0 =>
    let i : Imbalance := { i0 with price := lv.1 }
    if st.2.2 = none ∨ st.2.2 = some i.direction then
      (st.1, st.2.1 ++ [i], some i.direction)
    else
      ((if k ≤ st.2.1.length then st.1 ++ [mkStack st.2.1 st.2.2] else st.1),
        [i], some i.direction)
  | none =>
    ((if k ≤ st.2.1.length then st.1 ++ [mkStack st.2.1 st.2.2] else st.1),
      [], none)

/-- `ImbalanceDetector.find_stacked_imbalances` (imbalance.py lines
118-194): levels sorted by price DESCENDING
(`sorted(bar.levels.keys(), reverse=True)`), one pass, final flush. -/
def findStackedImbalances (r : ℚ) (k : ℕ) (bar : FootprintBar) :
    List StackedImbalance :=
  if bar.levels = [] then []
  else
    let st := (bar.levels.insertionSort fun x y => y.1 ≤ x.1).foldl
      (imbStep r k) ([], [], none)
    if k ≤ st.2.1.length then st.1 ++ [mkStack st.2.1 st.2.2] else st.1

/-- The spec's wording of the same scan: identical except the levels are
sorted by price ASCENDING. Used only to exhibit the divergence. -/
def findStackedImbalancesAsc (r : ℚ) (k : ℕ) (bar : FootprintBar) :
    List StackedImbalance :=
  if bar.levels = [] then []
  else
    let st := (bar.levels.insertionSort fun x y => x.1 ≤ y.1).foldl
      (imbStep r k) ([], [], none)
    if k ≤ st.2.1.length then st.1 ++ [mkStack st.2.1 st.2.2] else st.1

/-- The section-8 scenario-4 footprint bar. -/
def scenario4Bar : FootprintBar :=
  ⟨0, [(50000, ⟨50000, 30, 5, 1⟩), (50010, ⟨50010, 15, 3, 1⟩),
       (50020, ⟨50020, 12, 2, 1⟩), (50030, ⟨50030, 4, 10, 1⟩)]⟩

/-- Shape invariant of every emitted stack. -/
def goodStacks (k : ℕ) (l : List StackedImbalance) : Prop :=
  ∀ s ∈ l, k ≤ s.levels.length ∧
    s.start_price = (s.levels.headD dfltImb).price ∧
    s.end_price = (s.levels.getLastD dfltImb).price

theorem goodStacks_append (k : ℕ) (l : List StackedImbalance)
    (cur : List Imbalance) (dir : Option ImbDir)
    (hg : goodStacks k l) (hlen : k ≤ cur.length) :
    goodStacks k (l ++ [mkStack cur dir]) := by
  intro s hs
  rcases List.mem_append.1 hs with h | h
  · exact hg s h
  · simp only [List.mem_singleton] at h
    subst h
    exact ⟨hlen, rfl, rfl⟩

theorem goodStacks_condAppend (k : ℕ) (l : List StackedImbalance)
    (cur : List Imbalance) (dir : Option ImbDir) (hg : goodStacks k l) :
    goodStacks k (if k ≤ cur.length then l ++ [mkStack cur dir] else l) := by
  split
  · exact goodStacks_append k l cur dir hg (by assumption)
  · exact hg

theorem imbStep_inv (r : ℚ) (k : ℕ)
    (st : List StackedImbalance × List Imbalance × Option ImbDir)
    (lv : ℚ × FootprintLevel) (hg : goodStacks k st.1) :
    goodStacks k (imbStep r k st lv).1 := by
  unfold imbStep
  cases detectImbalance r lv.2.buy_volume lv.2.sell_volume with
  | none => exact goodStacks_condAppend k st.1 st.2.1 st.2.2 hg
  | some i0 =>
    simp only []
    split
    · exact hg
    · exact goodStacks_condAppend k st.1 st.2.1 st.2.2 hg

theorem foldl_imbStep_inv (r : ℚ) (k : ℕ)
    (L : List (ℚ × FootprintLevel)) :
    ∀ st : List StackedImbalance × List Imbalance × Option ImbDir,
      goodStacks k st.1 → goodStacks k (L.foldl (imbStep r k) st).1 := by
  induction L with
  | nil => intro st hg; exact hg
  | cons a t ih =>
    intro st hg
    exact ih (imbStep r k st a) (imbStep_inv r k st a hg)

theorem detect_buy_iff (r b s : ℚ) (hr : 1 < r) :
    imbDirOf r b s = some ImbDir.buy ↔
      ((0 < s ∧ r ≤ b / s) ∨ (s = 0 ∧ 0 < b)) := by
  unfold imbDirOf detectImbalance
  split_ifs with h1 h2 h3 h4 h5 <;> simp
  · simp_all
  · exact Or.inl ⟨h2.1, h2.2⟩
  · constructor
    · intro hs0
      exact lt_of_not_le fun hge => h2 ⟨hs0, hge⟩
    · intro hs0
      exfalso
      have hc := h3.2
      rw [hs0, zero_div] at hc
      linarith
  · exact Or.inr ⟨h4.2, h4.1⟩
  · constructor
    · intro hs0
      exact lt_of_not_le fun hge => h2 ⟨hs0, hge⟩
    · intro hs0
      exact absurd hs0 (ne_of_gt h5.1)
  · constructor
    · intro hs0
      exact lt_of_not_le fun hge => h2 ⟨hs0, hge⟩
    · intro hs0
      exact le_of_not_lt fun hb0 => h4 ⟨hb0, hs0⟩

theorem detect_sell_iff (r b s : ℚ) (hr : 1 < r) :
    imbDirOf r b s = some ImbDir.sell ↔
      ((0 < b ∧ r ≤ s / b) ∨ (b = 0 ∧ 0 < s)) := by
  unfold imbDirOf detectImbalance
  split_ifs with h1 h2 h3 h4 h5 <;> simp
  · simp_all
  · constructor
    · intro hb0
      refine lt_of_not_le fun hge => ?_
      have h2b : r * s ≤ b := (le_div_iff₀ h2.1).1 h2.2
      have h3b : r * b ≤ s := (le_div_iff₀ hb0).1 hge
      have hbig : 0 < (r - 1) * (r + 1) * b :=
        mul_pos (mul_pos (sub_pos.2 hr) (by linarith)) hb0
      nlinarith [mul_le_mul_of_nonneg_left h3b (by linarith : (0:ℚ) ≤ r)]
    · intro hb0
      exfalso
      have hc := h2.2
      rw [hb0, zero_div] at hc
      linarith
  · exact Or.inl ⟨h3.1, h3.2⟩
  · constructor
    · intro hb0
      rw [h4.2, zero_div]
      linarith
    · intro hb0
      exact absurd hb0 (ne_of_gt h4.1)
  · exact Or.inr ⟨h5.2, h5.1⟩
  · constructor
    · intro hb0
      exact lt_of_not_le fun hge => h3 ⟨hb0, hge⟩
    · intro hb0
      exact le_of_not_lt fun hs0 => h5 ⟨hs0, hb0⟩

theorem findStacked_good (r : ℚ) (k : ℕ) (bar : FootprintBar) :
    goodStacks k (findStackedImbalances r k bar) := by
  unfold findStackedImbalances
  split
  · intro s hs
    simp at hs
  · exact goodStacks_condAppend k _ _ _
      (foldl_imbStep_inv r k _ ([], [], none) (fun s hs => by simp at hs))

/-- The one stack the detector emits on the scenario-4 bar. -/
def c9Stack : StackedImbalance :=
  ⟨50020, 50000, ImbDir.buy,
    [⟨50020, 12, 2, some 6, ImbDir.buy⟩,
     ⟨50010, 15, 3, some 5, ImbDir.buy⟩,
     ⟨50000, 30, 5, some 6, ImbDir.buy⟩]⟩

theorem c9Stack_mem : c9Stack ∈ findStackedImbalances 3 3 scenario4Bar := by
  norm_num [findStackedImbalances, scenario4Bar, List.insertionSort,
    List.orderedInsert, imbStep, detectImbalance, mkStack, dfltImb, c9Stack]
  simp

/-- C9 (corrected): `detect_imbalance` classifies a level as a buy
imbalance iff sellVolume > 0 and buyVolume/sellVolume ≥ r, or
sellVolume = 0 and buyVolume > 0 (symmetrically for sell), for any
threshold r > 1; every emitted stack has at least `min_consecutive`
levels, with `start_price` the first and `end_price` the last level of
the scan; but `find_stacked_imbalances` scans the levels sorted by
price DESCENDING (`reverse=True`), so on the section-8 scenario-4 bar
with r = 3, k = 3 it emits exactly one buy stack of 3 levels scanned
50020, 50010, 50000, with start_price = 50020 and end_price = 50000 —
not an ascending scan starting at 50000 as the claim states. -/
theorem claim_C9_amended :
    (∀ r b s : ℚ, 1 < r →
      (imbDirOf r b s = some ImbDir.buy ↔
        ((0 < s ∧ r ≤ b / s) ∨ (s = 0 ∧ 0 < b))) ∧
      (imbDirOf r b s = some ImbDir.sell ↔
        ((0 < b ∧ r ≤ s / b) ∨ (b = 0 ∧ 0 < s)))) ∧
    (∀ (r : ℚ) (k : ℕ) (bar : FootprintBar),
      ∀ st ∈ findStackedImbalances r k bar,
        k ≤ st.levels.length ∧
        st.start_price = (st.levels.headD dfltImb).price ∧
        st.end_price = (st.levels.getLastD dfltImb).price) ∧
    findStackedImbalances 3 3 scenario4Bar = [c9Stack] := by
  refine ⟨fun r b s hr => ⟨detect_buy_iff r b s hr, detect_sell_iff r b s hr⟩,
    ?_, ?_⟩
  · intro r k bar st hst
    exact findStacked_good r k bar st hst
  · norm_num [findStackedImbalances, scenario4Bar, List.insertionSort,
      List.orderedInsert, imbStep, detectImbalance, mkStack, dfltImb, c9Stack]
    simp

/-- C9 counterexample: the claim's ascending scan would emit the
scenario-4 stack with start_price 50000 and end_price 50020; the code's
descending scan emits start_price 50020 and end_price 50000, so the two
scans produce different results on the scenario bar. -/
theorem claim_C9_cex :
    (findStackedImbalancesAsc 3 3 scenario4Bar).map
        (fun s => (s.start_price, s.end_price)) = [(50000, 50020)] ∧
    (findStackedImbalances 3 3 scenario4Bar).map
        (fun s => (s.start_price, s.end_price)) = [(50020, 50000)] ∧
    findStackedImbalancesAsc 3 3 scenario4Bar
      ≠ findStackedImbalances 3 3 scenario4Bar := by
  refine ⟨?_, ?_, ?_⟩ <;>
    norm_num [findStackedImbalances, findStackedImbalancesAsc, scenario4Bar,
      List.insertionSort, List.orderedInsert, imbStep, detectImbalance,
      mkStack, dfltImb] <;>
    simp

/-- C9 witness: the amended theorem applied at r = 3 to the level
buy=30/sell=5 and to the emitted scenario stack. -/
theorem claim_C9_witness :
    (1 : ℚ) < 3 ∧
    (imbDirOf 3 30 5 = some ImbDir.buy ↔
      ((0 < (5 : ℚ) ∧ (3 : ℚ) ≤ 30 / 5) ∨ ((5 : ℚ) = 0 ∧ 0 < (30 : ℚ)))) ∧
    c9Stack ∈ findStackedImbalances 3 3 scenario4Bar ∧
    (3 ≤ c9Stack.levels.length ∧
      c9Stack.start_price = (c9Stack.levels.headD dfltImb).price ∧
      c9Stack.end_price = (c9Stack.levels.getLastD dfltImb).price) :=
  ⟨by norm_num,
   (claim_C9_amended.1 3 30 5 (by norm_num)).1,
   c9Stack_mem,
   claim_C9_amended.2.1 3 3 scenario4Bar c9Stack c9Stack_mem⟩

end CryptoOrderflow
